import Mathlib

/-!
Shallow embedding of the hybrid retrieval and ranking engine of this
repository (source: `src/Retrieval-LangChainImpl/src/backend/api/rag-pipeline.ts`
and the route handler `src/unnamed/part_007`), together with proofs settling
the frozen claims about its specification.

Numeric scores are modelled as rationals (the idealisation of JS numbers used
throughout the spec); `Math.sqrt`, which ℚ lacks, is passed in as an explicit
parameter `sqrtQ` so that every theorem holds for any model of the square
root, and concrete evaluations instantiate it only at perfect squares
(`0` and `1`, where `id` agrees with the real square root).
-/

/- The Batteries rational arithmetic is `@[irreducible]`, which hides it
from kernel evaluation; restore reducibility inside this file so that the
concrete runs of the pipeline below can be checked by `decide`. -/
attribute [local semireducible] Rat.add Rat.sub Rat.mul Rat.inv

namespace RagPipeline

/-- The whitespace class of the JS regexes `\s` / `String.prototype.trim`
(ASCII whitespace plus the Unicode space separators). -/
def isJsWs (c : Char) : Bool :=
  c == ' ' || c == '\t' || c == '\n' || c == '\r' ||
  c == '\u000B' || c == '\u000C' || c == '\u00A0' || c == '\u1680' ||
  ('\u2000' <= c && c <= '\u200A') || c == '\u2028' || c == '\u2029' ||
  c == '\u202F' || c == '\u205F' || c == '\u3000' || c == '\uFEFF'

/-- One right-to-left step of `split(/\s+/)`.  The state is the field list
of the already-processed suffix together with a flag recording whether the
previously processed character (the left end of that suffix) was whitespace:
a whitespace character opens a fresh empty field unless it merely extends a
whitespace run. -/
def splitStep (c : Char) (st : List (List Char) × Bool) :
    List (List Char) × Bool :=
  if isJsWs c then
    (if st.2 then st.1 else [] :: st.1, true)
  else
    match st.1 with
    | [] => ([[c]], false)
    | f :: fs => ((c :: f) :: fs, false)

/-- `text.split(/\s+/)` on a character list: each maximal whitespace run is
a separator, so a run at the start or end of the text (and the empty text
itself) contributes an empty field.  Mirrors the JS semantics used by
`computeTextSimilarity`. -/
def jsSplitWs (cs : List Char) : List (List Char) :=
  (cs.foldr splitStep ([[]], false)).1

/-- One right-to-left step of whitespace tokenization.  The flag records
whether the left end of the processed suffix is a token boundary
(whitespace or the end of the text). -/
def tokenStep (c : Char) (st : List (List Char) × Bool) :
    List (List Char) × Bool :=
  if isJsWs c then (st.1, true)
  else if st.2 then ([c] :: st.1, false)
  else
    match st.1 with
    | [] => ([[c]], false)
    | t :: ts => ((c :: t) :: ts, false)

/-- The maximal non-whitespace runs of a character list: the token list that
the spec's phrase "split on whitespace into token sets" denotes (no empty
tokens). -/
def wsTokens (cs : List Char) : List (List Char) :=
  (cs.foldr tokenStep ([], true)).1

/-- Charwise model of `String.prototype.toLowerCase` (exact on the ASCII
range, which is all the pipeline's literals use). -/
def jsToLower (s : String) : String := String.mk (s.toList.map Char.toLower)

/-- `computeTextSimilarity` (rag-pipeline.ts:345-351): Jaccard index of the
two `Set`s built from `text.split(/\s+/)`.  The union is never empty because
`split` always yields at least one (possibly empty-string) field. -/
def computeTextSimilarity (text1 text2 : String) : ℚ :=
  let words1 := ((jsSplitWs text1.toList).map (fun cs => String.mk cs)).toFinset
  let words2 := ((jsSplitWs text2.toList).map (fun cs => String.mk cs)).toFinset
  ((words1 ∩ words2).card : ℚ) / ((words1 ∪ words2).card : ℚ)

/-- Modelled from the spec (§4.1): "lower-case both texts, split on
whitespace into token sets, return |intersection| / |union| (Jaccard index);
returns 0 if either token set is empty."  Used only to compare with the
source's `computeTextSimilarity`. -/
def specLexicalSim (query doc : String) : ℚ :=
  let t1 := ((wsTokens (jsToLower query).toList).map (fun cs => String.mk cs)).toFinset
  let t2 := ((wsTokens (jsToLower doc).toList).map (fun cs => String.mk cs)).toFinset
  if t1 = ∅ ∨ t2 = ∅ then 0
  else ((t1 ∩ t2).card : ℚ) / ((t1 ∪ t2).card : ℚ)

/-- `computeCosineSimilarity` (rag-pipeline.ts:333-343), with `Math.sqrt`
abstracted as `sqrtQ`.  Returns 0 on length mismatch or zero magnitude. -/
def computeCosineSimilarity (sqrtQ : ℚ → ℚ) (vec1 vec2 : List ℚ) : ℚ :=
  if vec1.length ≠ vec2.length then 0
  else
    let dot := ((vec1.zip vec2).map (fun p => p.1 * p.2)).sum
    let na := (vec1.map (fun a => a * a)).sum
    let nb := (vec2.map (fun a => a * a)).sum
    if na = 0 ∨ nb = 0 then 0
    else dot / (sqrtQ na * sqrtQ nb)

/-- `normalizeScore` (rag-pipeline.ts:328-331): min-max normalization with
the `max == min` branch mapping every score to 1. -/
def normalizeScore (score min max : ℚ) : ℚ :=
  if max = min then 1 else (score - min) / (max - min)

/-- `Math.min(...scores)` over a nonempty batch `x :: xs`. -/
def jsMin (x : ℚ) (xs : List ℚ) : ℚ := xs.foldl min x

/-- `Math.max(...scores)` over a nonempty batch `x :: xs`. -/
def jsMax (x : ℚ) (xs : List ℚ) : ℚ := xs.foldl max x

/-- One signal's per-query-batch normalization as performed at
rag-pipeline.ts:295-316: every raw score of the batch is min-max normalized
against the batch minimum and maximum. -/
def normalizeBatch (x : ℚ) (xs : List ℚ) : List ℚ :=
  (x :: xs).map (fun s => normalizeScore s (jsMin x xs) (jsMax x xs))

/-- A stored document of the corpus snapshot.  `_id` is the Mongo key
(already in its `toString` form), `content` is `undefined`-able, `embedding`
is the optional stored vector.  The opaque `metadata` bag is omitted: the
engine never reads it. -/
structure Doc where
  _id : String
  content : Option String
  embedding : Option (List ℚ)
deriving DecidableEq, Repr

/-- A per-query candidate record as built by `performHybridSearch`
(rag-pipeline.ts:272-316): the document fields plus the raw, normalized and
fused scores. -/
structure Cand where
  _id : String
  content : Option String
  vector_score : ℚ
  bm25_score : ℚ
  vector_score_norm : ℚ
  bm25_score_norm : ℚ
  hybrid_score : ℚ
deriving DecidableEq, Repr

/-- An entry of one of the two per-signal result streams (`knnResults` /
`textResults`): the spread document plus that signal's raw score. -/
structure SDoc where
  d : Doc
  score : ℚ
deriving DecidableEq, Repr

/-- The weight/topK configuration (`RAGConfig`), with the `hybridWeight`
third signal weight of the `part_007` route handler. -/
structure RAGConfig where
  vectorWeight : ℚ
  bm25Weight : ℚ
  hybridWeight : ℚ
  topK : ℕ
deriving DecidableEq, Repr

/-- A document is processed by the scoring loop unless `!doc || !doc.content`
(rag-pipeline.ts:205): both a missing and an empty `content` are falsy. -/
def hasContent (d : Doc) : Bool := d.content.getD "" ≠ ""

/-- The `knnResults` stream (rag-pipeline.ts:202-218): every processed
document carrying an embedding array (even an empty one — `[]` is a truthy
array in JS), scored by cosine similarity against the query embedding. -/
def knnStream (sqrtQ : ℚ → ℚ) (docs : List Doc) (emb : List ℚ) : List SDoc :=
  docs.filterMap (fun d =>
    if hasContent d ∧ d.embedding.isSome then
      some ⟨d, computeCosineSimilarity sqrtQ emb (d.embedding.getD [])⟩
    else none)

/-- The `textResults` stream (rag-pipeline.ts:220-228): every processed
document, scored by `computeTextSimilarity` on the lower-cased texts. -/
def txtStream (docs : List Doc) (text : String) : List SDoc :=
  docs.filterMap (fun d =>
    if hasContent d then
      some ⟨d, computeTextSimilarity (jsToLower text) (jsToLower (d.content.getD ""))⟩
    else none)

/-- The client-side vector fallback (rag-pipeline.ts:244-267), entered when
`knnResults` is empty: candidates of `textResults` with a nonempty stored
embedding, re-scored with the local `cosine` (identical in behaviour to
`computeCosineSimilarity`). -/
def knnFallback (sqrtQ : ℚ → ℚ) (emb : List ℚ) (txtS : List SDoc) : List SDoc :=
  (txtS.filter (fun s => s.d.embedding.isSome ∧ (s.d.embedding.getD []).length > 0)).map
    (fun s => ⟨s.d, computeCosineSimilarity sqrtQ emb (s.d.embedding.getD [])⟩)

/-- Which raw-score field `addToMap` writes. -/
inductive Signal where
  | vector
  | bm25
deriving DecidableEq, Repr

/-- The default record `mergedMap.get(id) || {...}` (rag-pipeline.ts:274-283):
document identity and content with every score zeroed. -/
def emptyCand (d : Doc) : Cand :=
  ⟨d._id, d.content, 0, 0, 0, 0, 0⟩

/-- `existing[scoreField] = doc[scoreField] ?? 0`. -/
def setSignal (c : Cand) (f : Signal) (q : ℚ) : Cand :=
  match f with
  | .vector => { c with vector_score := q }
  | .bm25 => { c with bm25_score := q }

/-- `addToMap` (rag-pipeline.ts:272-286): update the existing entry of the
insertion-ordered `Map` keyed by `_id`, or append a fresh zero-scored one. -/
def addToMap (m : List Cand) (sd : SDoc) (f : Signal) : List Cand :=
  if m.any (fun c => c._id == sd.d._id) then
    m.map (fun c => if c._id == sd.d._id then setSignal c f sd.score else c)
  else
    m ++ [setSignal (emptyCand sd.d) f sd.score]

/-- The merge of the two streams (rag-pipeline.ts:288-291): `knnResults` are
inserted first, then `textResults`; `Array.from(map.values())` returns the
entries in insertion order. -/
def mergeStreams (knn txtS : List SDoc) : List Cand :=
  txtS.foldl (fun m sd => addToMap m sd .bm25)
    (knn.foldl (fun m sd => addToMap m sd .vector) [])

/-- The per-candidate body of the normalization-and-fusion map
(rag-pipeline.ts:303-315): min-max normalize both raw scores against the
batch extrema, then `hybrid_score = vnorm·vectorWeight + bnorm·bm25Weight`. -/
def fuseCand (minV maxV minB maxB : ℚ) (cfg : RAGConfig) (r : Cand) : Cand :=
  { r with
    vector_score_norm := normalizeScore r.vector_score minV maxV
    bm25_score_norm := normalizeScore r.bm25_score minB maxB
    hybrid_score := normalizeScore r.vector_score minV maxV * cfg.vectorWeight +
      normalizeScore r.bm25_score minB maxB * cfg.bm25Weight }

/-- The normalization-and-fusion map (rag-pipeline.ts:295-316) over the
nonempty merged batch `m :: ms`: each candidate is fused against the batch
extrema of the two signals. -/
def fuseStage (m : Cand) (ms : List Cand) (cfg : RAGConfig) : List Cand :=
  (m :: ms).map (fuseCand
    (jsMin m.vector_score (ms.map (fun r => r.vector_score)))
    (jsMax m.vector_score (ms.map (fun r => r.vector_score)))
    (jsMin m.bm25_score (ms.map (fun r => r.bm25_score)))
    (jsMax m.bm25_score (ms.map (fun r => r.bm25_score))) cfg)

/-- The descending comparison `(a, b) => b.hybrid_score - a.hybrid_score`. -/
def hsLE (a b : Cand) : Prop := b.hybrid_score ≤ a.hybrid_score

instance : DecidableRel hsLE := fun a b =>
  inferInstanceAs (Decidable (b.hybrid_score ≤ a.hybrid_score))

instance : IsTotal Cand hsLE := ⟨fun a b => le_total b.hybrid_score a.hybrid_score⟩

instance : IsTrans Cand hsLE := ⟨fun _ _ _ h1 h2 => le_trans h2 h1⟩

/-- The `.sort((a, b) => b.hybrid_score - a.hybrid_score)` call
(rag-pipeline.ts:319).  `Array.prototype.sort` is a stable sort
(ECMAScript 2019); a stable sort is uniquely determined by its comparison,
so insertion sort is a faithful model. -/
def sortByHybridDesc (l : List Cand) : List Cand := List.insertionSort hsLE l

/-- The defensive deduplication (rag-pipeline.ts:321-323):
`filter((story, i, self) => i === self.findIndex(s => s._id === story._id))`
keeps an element exactly when no earlier element carries its `_id`; `seen`
accumulates the identities already kept. -/
def dedupByIdAux (seen : List String) : List Cand → List Cand
  | [] => []
  | c :: rest =>
      if c._id ∈ seen then dedupByIdAux seen rest
      else c :: dedupByIdAux (c._id :: seen) rest

/-- The whole dedup pass: keep the first occurrence of each `_id`. -/
def dedupById (l : List Cand) : List Cand := dedupByIdAux [] l

/-- The placeholder returned for an empty collection
(rag-pipeline.ts:170-184), metadata bag omitted. -/
def dummyStory : Cand :=
  ⟨"1", some "Example story - No actual stories in database", 0, 0, 0, 0, 0⟩

/-- The merged candidate list of one query evaluation (the `merged` array,
rag-pipeline.ts:269-291): the two per-signal streams — with the client-side
vector fallback applied when `knnResults` came out empty — merged by
document id. -/
def pipelineMerged (sqrtQ : ℚ → ℚ) (docs : List Doc) (emb : List ℚ)
    (text : String) : List Cand :=
  let knn0 := knnStream sqrtQ docs emb
  let txtS := txtStream docs text
  let knn := if knn0.isEmpty then knnFallback sqrtQ emb txtS else knn0
  mergeStreams knn txtS

/-- `performHybridSearch` (rag-pipeline.ts:159-326): empty-collection
placeholder; per-document vector/lexical scoring; client-side vector
fallback; merge by `_id`; per-batch min-max normalization; weighted fusion;
stable descending sort; dedup; `slice(0, topK)`. -/
def performHybridSearch (sqrtQ : ℚ → ℚ) (docs : List Doc) (emb : List ℚ)
    (text : String) (cfg : RAGConfig) : List Cand :=
  if docs.isEmpty then [dummyStory]
  else
    match pipelineMerged sqrtQ docs emb text with
    | [] => []
    | m :: ms => (dedupById (sortByHybridDesc (fuseStage m ms cfg))).take cfg.topK

/-- The route handler's weight normalization (part_007:28-38):
`??`-defaulting against `DEFAULT_CONFIG = {0.6, 0.3, 0.1}`, then division by
`v + b + h || 1` (the JS `||` replaces a zero sum by 1). -/
def normalizeWeights (v b h : Option ℚ) : ℚ × ℚ × ℚ :=
  let v := v.getD (6 / 10)
  let b := b.getD (3 / 10)
  let h := h.getD (1 / 10)
  let total := if v + b + h = 0 then 1 else v + b + h
  (v / total, b / total, h / total)

/-- An entry of the `enhanced` array built by `enhanceWithLLM`
(part_007:419-476): the spread candidate plus the judge fields.  `evidence`
is absent on the error path (the `catch` at part_007:469 pushes no
`evidence` key). -/
structure ECand where
  base : Cand
  evidence : Option String
  llm_score : ℚ
  llm_reason : String
  hybrid_score_final : ℚ
deriving DecidableEq, Repr

/-- The judge boundary of `enhanceWithLLM`, resolved per candidate:
`Except.error` models an exception thrown by the external chat call
(caught at part_007:467-470); `Except.ok (score, reason)` models a response
whose parse layer resolved to `llm_score`/`reason` — the parse itself never
throws (its failures resolve to score 0, part_007:438-453). -/
def JudgeResult := Except Unit (ℚ × String)

/-- The descending comparison on `hybrid_score_final` (part_007:474); the
`|| 0` on each side only replaces the falsy 0 by 0 and is a no-op on ℚ. -/
def finalLE (a b : ECand) : Prop := b.hybrid_score_final ≤ a.hybrid_score_final

instance : DecidableRel finalLE := fun a b =>
  inferInstanceAs (Decidable (b.hybrid_score_final ≤ a.hybrid_score_final))

instance : IsTotal ECand finalLE :=
  ⟨fun a b => le_total b.hybrid_score_final a.hybrid_score_final⟩

instance : IsTrans ECand finalLE := ⟨fun _ _ _ h1 h2 => le_trans h2 h1⟩

/-- `enhanceWithLLM` (part_007:419-476): per candidate, ask the judge; on
success recompute the three-signal
`hybrid_score_final = vnorm·wv + bnorm·wb + wh·llm_score` with the snippet
`(c.content || '').slice(0, 400)` as evidence; on a thrown error fall back to
`llm_score = 0`, reason `"LLM failed"`, `hybrid_score_final = c.hybrid_score`;
finally re-sort (stably) descending by `hybrid_score_final`. -/
def enhanceWithLLM (cands : List Cand) (judge : Cand → JudgeResult)
    (cfg : RAGConfig) : List ECand :=
  let enhanced := cands.map (fun c =>
    match judge c with
    | .error _ => ⟨c, none, 0, "LLM failed", c.hybrid_score⟩
    | .ok (q, reason) =>
        ⟨c, some (String.mk ((c.content.getD "").toList.take 400)), q, reason,
          c.vector_score_norm * cfg.vectorWeight +
            c.bm25_score_norm * cfg.bm25Weight + cfg.hybridWeight * q⟩)
  List.insertionSort finalLE enhanced

/-! ### The story normalizer (`normalizeStory`, rag-pipeline.ts:126-157) -/

/-- `story.trim().replace(/\r\n/g, '\n').replace(/\s+/g, ' ')`
(rag-pipeline.ts:128-131): trimming and then collapsing every whitespace run
to one space is exactly joining the whitespace-separated tokens with single
spaces (the `\r\n → \n` step is subsumed by the final collapse). -/
def collapseWs (s : String) : String :=
  String.intercalate " " ((wsTokens s.toList).map (fun cs => String.mk cs))

/-- All decompositions `cs = a ++ pat ++ b` of a character list around an
occurrence of the literal `pat`. -/
def splitsOn (pat cs : List Char) : List (List Char × List Char) :=
  (List.range (cs.length + 1)).filterMap (fun i =>
    if pat.isPrefixOf (cs.drop i) then
      some (cs.take i, (cs.drop i).drop pat.length)
    else none)

/-- `/^as a .+? i want .+? so that .+?$/i.test(normalized)`
(rag-pipeline.ts:134).  For `test`, laziness of `.+?` is irrelevant: the
anchored regex accepts exactly the strings that decompose as
`as a <x> i want <y> so that <z>` (case-insensitively) with `x`, `y`, `z`
nonempty.  `normalized` never contains a line terminator (every whitespace
run was collapsed to a space), so `.` may be read as "any character". -/
def formatTest (cs : List Char) : Bool :=
  let l := cs.map Char.toLower
  "as a ".toList.isPrefixOf l &&
    (splitsOn " i want ".toList (l.drop 5)).any (fun p =>
      ¬ p.1.isEmpty &&
        (splitsOn " so that ".toList p.2).any (fun q =>
          ¬ q.1.isEmpty && ¬ q.2.isEmpty))

/-- Try one alternative of a match pattern at one position: the literal
prefix `pre` must match case-insensitively, and the following greedy capture
`([^,.]+)` must be nonempty.  The capture keeps the original case. -/
def captureAfter (pre suf : List Char) : Option (List Char) :=
  if pre.isPrefixOf (suf.map Char.toLower) then
    let cap := (suf.drop pre.length).takeWhile (fun c => c ≠ ',' ∧ c ≠ '.')
    if cap.isEmpty then none else some cap
  else none

/-- `String.prototype.match` for the patterns of `normalizeStory`: scan the
positions left to right and, at each position, try the expanded alternatives
in the regex engine's backtracking order; the first success wins. -/
def matchCapture (pres : List (List Char)) (cs : List Char) :
    Option (List Char) :=
  (List.range (cs.length + 1)).findSome? (fun i =>
    pres.findSome? (fun p => captureAfter p (cs.drop i)))

/-- The alternatives of
`/(?:as (?:an?|the)|for(?: the)?|from(?: the)?) ([^,.]+)/i`
(rag-pipeline.ts:136), each with the trailing literal space, in
backtracking order (greedy `n?` and `(?: the)?` first). -/
def rolePats : List (List Char) :=
  ["as an ", "as a ", "as the ", "for the ", "for ", "from the ", "from "].map
    String.toList

/-- The alternatives of `/(?:want|need|would like|should be able) to ([^,.]+)/i`
(rag-pipeline.ts:137). -/
def actionPats : List (List Char) :=
  ["want to ", "need to ", "would like to ", "should be able to "].map
    String.toList

/-- The alternatives of `/(?:so that|in order to|to be able to) ([^,.]+)/i`
(rag-pipeline.ts:138). -/
def valuePats : List (List Char) :=
  ["so that ", "in order to ", "to be able to "].map String.toList

/-- `String.prototype.trim` on a character list. -/
def jsTrim (cs : List Char) : List Char :=
  ((cs.dropWhile isJsWs).reverse.dropWhile isJsWs).reverse

/-- `normalized.charAt(0).toUpperCase() + normalized.slice(1).toLowerCase()`
(rag-pipeline.ts:149). -/
def capFirst : List Char → List Char
  | [] => []
  | c :: rest => Char.toUpper c :: rest.map Char.toLower

/-- `if (!/[.!?]$/.test(normalized)) normalized += '.'`
(rag-pipeline.ts:152-154). -/
def ensurePunct (cs : List Char) : List Char :=
  if cs.getLast? = some '.' ∨ cs.getLast? = some '!' ∨ cs.getLast? = some '?'
  then cs else cs ++ ['.']

/-- `normalizeStory` (rag-pipeline.ts:126-157): collapse whitespace; if the
text is not already in the `as a … i want … so that …` shape, rebuild it
from the extracted role/action/value (with defaults `'user'`, the whole
text, `'achieve the desired outcome'`); capitalize the first character and
lower-case the rest; ensure a terminal `.`, `!` or `?`. -/
def normalizeStory (story : String) : String :=
  let cs := (collapseWs story).toList
  let rebuilt :=
    if formatTest cs then cs
    else
      let role := ((matchCapture rolePats cs).map jsTrim).getD "user".toList
      let action := ((matchCapture actionPats cs).map jsTrim).getD cs
      let value := ((matchCapture valuePats cs).map jsTrim).getD
        "achieve the desired outcome".toList
      "As a ".toList ++ role ++ ", I want to ".toList ++ action ++
        " so that ".toList ++ value
  String.mk (ensurePunct (capFirst rebuilt))

/-! ### Batch extrema -/

theorem jsMin_self_le (x : ℚ) (xs : List ℚ) : jsMin x xs ≤ x := by
  induction xs generalizing x with
  | nil => exact le_refl x
  | cons y ys ih =>
      calc jsMin x (y :: ys) = jsMin (min x y) ys := rfl
        _ ≤ min x y := ih _
        _ ≤ x := min_le_left _ _

theorem le_jsMax_self (x : ℚ) (xs : List ℚ) : x ≤ jsMax x xs := by
  induction xs generalizing x with
  | nil => exact le_refl x
  | cons y ys ih =>
      calc x ≤ max x y := le_max_left _ _
        _ ≤ jsMax (max x y) ys := ih _
        _ = jsMax x (y :: ys) := rfl

theorem jsMin_le_of_mem {x a : ℚ} {xs : List ℚ} (h : a ∈ x :: xs) :
    jsMin x xs ≤ a := by
  induction xs generalizing x with
  | nil => simp only [List.mem_singleton] at h; simp [jsMin, h]
  | cons y ys ih =>
      rcases List.mem_cons.mp h with rfl | h'
      · calc jsMin a (y :: ys) = jsMin (min a y) ys := rfl
          _ ≤ min a y := jsMin_self_le _ _
          _ ≤ a := min_le_left _ _
      · rcases List.mem_cons.mp h' with rfl | h''
        · calc jsMin x (a :: ys) = jsMin (min x a) ys := rfl
            _ ≤ min x a := jsMin_self_le _ _
            _ ≤ a := min_le_right _ _
        · exact ih (List.mem_cons_of_mem _ h'')

theorem le_jsMax_of_mem {x a : ℚ} {xs : List ℚ} (h : a ∈ x :: xs) :
    a ≤ jsMax x xs := by
  induction xs generalizing x with
  | nil => simp only [List.mem_singleton] at h; simp [jsMax, h]
  | cons y ys ih =>
      rcases List.mem_cons.mp h with rfl | h'
      · calc a ≤ max a y := le_max_left _ _
          _ ≤ jsMax (max a y) ys := le_jsMax_self _ _
          _ = jsMax a (y :: ys) := rfl
      · rcases List.mem_cons.mp h' with rfl | h''
        · calc a ≤ max x a := le_max_right _ _
            _ ≤ jsMax (max x a) ys := le_jsMax_self _ _
            _ = jsMax x (a :: ys) := rfl
        · exact ih (List.mem_cons_of_mem _ h'')

theorem mul_min_eq {c a b : ℚ} (hc : 0 < c) :
    c * min a b = min (c * a) (c * b) := by
  rcases le_total a b with h | h
  · rw [min_eq_left h, min_eq_left (mul_le_mul_of_nonneg_left h hc.le)]
  · rw [min_eq_right h, min_eq_right (mul_le_mul_of_nonneg_left h hc.le)]

theorem mul_max_eq {c a b : ℚ} (hc : 0 < c) :
    c * max a b = max (c * a) (c * b) := by
  rcases le_total a b with h | h
  · rw [max_eq_right h, max_eq_right (mul_le_mul_of_nonneg_left h hc.le)]
  · rw [max_eq_left h, max_eq_left (mul_le_mul_of_nonneg_left h hc.le)]

theorem jsMin_scale {c : ℚ} (hc : 0 < c) (x : ℚ) (xs : List ℚ) :
    jsMin (c * x) (xs.map (fun s => c * s)) = c * jsMin x xs := by
  induction xs generalizing x with
  | nil => rfl
  | cons y ys ih =>
      show jsMin (min (c * x) (c * y)) (ys.map _) = c * jsMin (min x y) ys
      rw [← mul_min_eq hc, ih]

theorem jsMax_scale {c : ℚ} (hc : 0 < c) (x : ℚ) (xs : List ℚ) :
    jsMax (c * x) (xs.map (fun s => c * s)) = c * jsMax x xs := by
  induction xs generalizing x with
  | nil => rfl
  | cons y ys ih =>
      show jsMax (max (c * x) (c * y)) (ys.map _) = c * jsMax (max x y) ys
      rw [← mul_max_eq hc, ih]

/-! ### Normalization lemmas -/

theorem normalizeScore_nonneg {s mn mx : ℚ} (h1 : mn ≤ s) (h2 : s ≤ mx) :
    0 ≤ normalizeScore s mn mx := by
  unfold normalizeScore
  split
  · norm_num
  · next hne =>
      have hlt : 0 < mx - mn := by
        rcases lt_or_eq_of_le (le_trans h1 h2) with h | h
        · linarith
        · exact absurd h.symm hne
      exact div_nonneg (by linarith) (le_of_lt hlt)

theorem normalizeScore_le_one {s mn mx : ℚ} (h1 : mn ≤ s) (h2 : s ≤ mx) :
    normalizeScore s mn mx ≤ 1 := by
  unfold normalizeScore
  split
  · norm_num
  · next hne =>
      have hlt : 0 < mx - mn := by
        rcases lt_or_eq_of_le (le_trans h1 h2) with h | h
        · linarith
        · exact absurd h.symm hne
      rw [div_le_one hlt]
      linarith

theorem normalizeScore_scale {c : ℚ} (hc : 0 < c) (s mn mx : ℚ) :
    normalizeScore (c * s) (c * mn) (c * mx) = normalizeScore s mn mx := by
  unfold normalizeScore
  by_cases h : mx = mn
  · rw [if_pos h, if_pos (by rw [h])]
  · have h' : c * mx ≠ c * mn := fun hcc =>
      h (mul_left_cancel₀ (ne_of_gt hc) hcc)
    rw [if_neg h', if_neg h, ← mul_sub, ← mul_sub,
      mul_div_mul_left _ _ (ne_of_gt hc)]

/-! ### Claim C9 — scale invariance of the batch normalization -/

/-- C9: for every batch of raw scores and every positive constant `c`,
multiplying every raw score in the batch by `c` leaves the min-max
normalized batch unchanged (including the `max == min` branch, which maps
every score to 1 in both runs). -/
theorem c9_normalization_scale_invariant (c x : ℚ) (xs : List ℚ)
    (hc : 0 < c) :
    normalizeBatch (c * x) (xs.map (fun s => c * s)) = normalizeBatch x xs := by
  unfold normalizeBatch
  rw [jsMin_scale hc, jsMax_scale hc, ← List.map_cons (fun s => c * s) x xs,
    List.map_map]
  have hfun :
      ((fun s => normalizeScore s (c * jsMin x xs) (c * jsMax x xs)) ∘
        fun s => c * s) =
      fun s => normalizeScore s (jsMin x xs) (jsMax x xs) :=
    funext (fun s => normalizeScore_scale hc s _ _)
  rw [hfun]

/-- Witness for C9 at the batch `[3, 5, 7]` and constant `2`. -/
theorem c9_witness :
    (0 : ℚ) < 2 ∧
    normalizeBatch (2 * 3) ([5, 7].map (fun s => 2 * s)) =
      normalizeBatch 3 [5, 7] :=
  ⟨by norm_num, c9_normalization_scale_invariant 2 3 [5, 7] (by norm_num)⟩

/-! ### Claim C2 — weight normalization -/

/-- C2 counterexample: for the caller-supplied configuration whose weights
are all 0 (sum 0), the "rescaled" weights still sum to 0, not to 1, and are
not replaced by equal shares of 1. -/
theorem c2_counterexample :
    (normalizeWeights (some 0) (some 0) (some 0)).1 +
      (normalizeWeights (some 0) (some 0) (some 0)).2.1 +
      (normalizeWeights (some 0) (some 0) (some 0)).2.2 ≠ 1 := by
  decide

/-- C2 amended: when the caller-supplied sum is nonzero the weights are
rescaled so their sum is exactly 1 (each divided by the sum); when the sum
is 0 the divisor is replaced by 1 and the weights are passed through
unchanged (so they still sum to 0 rather than being treated as equal shares
of 1). -/
theorem c2_amended_weight_normalization (v b h : ℚ) :
    (v + b + h ≠ 0 →
      (normalizeWeights (some v) (some b) (some h)).1 +
        (normalizeWeights (some v) (some b) (some h)).2.1 +
        (normalizeWeights (some v) (some b) (some h)).2.2 = 1 ∧
      normalizeWeights (some v) (some b) (some h) =
        (v / (v + b + h), b / (v + b + h), h / (v + b + h))) ∧
    (v + b + h = 0 →
      normalizeWeights (some v) (some b) (some h) = (v, b, h)) := by
  constructor
  · intro hne
    refine ⟨?_, ?_⟩
    · simp only [normalizeWeights, Option.getD_some, if_neg hne]
      rw [div_add_div_same, div_add_div_same, div_self hne]
    · simp [normalizeWeights, if_neg hne]
  · intro hz
    simp [normalizeWeights, if_pos hz]

/-- Witness for C2 amended: a nonzero-sum configuration is rescaled to sum
1, and a zero-sum configuration is passed through unchanged. -/
theorem c2_witness :
    normalizeWeights (some 1) (some 2) (some 3) = (1 / 6, 2 / 6, 3 / 6) ∧
    normalizeWeights (some 1) (some (-2)) (some 1) = (1, -2, 1) :=
  ⟨by
    have h := (c2_amended_weight_normalization 1 2 3).1 (by norm_num)
    rw [h.2]; norm_num,
   (c2_amended_weight_normalization 1 (-2) 1).2 (by norm_num)⟩

/-! ### Claim C1 — empty corpus -/

/-- C1 counterexample: for a query against the empty corpus snapshot, the
engine does not return an empty result list — the result has one element
(the placeholder story). -/
theorem c1_counterexample :
    performHybridSearch id [] [] "" ⟨7 / 10, 3 / 10, 0, 5⟩ ≠ [] := by
  decide

/-- C1 amended: for every query against an empty corpus snapshot the
engine returns, without error (the `count === 0` early return is taken and
the function is total), the one-element list holding the placeholder story
with id `"1"` and all-zero scores — not an empty list. -/
theorem c1_amended_empty_corpus_placeholder (sqrtQ : ℚ → ℚ) (emb : List ℚ)
    (text : String) (cfg : RAGConfig) :
    performHybridSearch sqrtQ [] emb text cfg = [dummyStory] := rfl

/-! ### Merge lemmas -/

theorem setSignal_id (c : Cand) (f : Signal) (q : ℚ) :
    (setSignal c f q)._id = c._id := by
  cases f <;> rfl

theorem setSignal_vector_bm25 (c : Cand) (q : ℚ) :
    (setSignal c .bm25 q).vector_score = c.vector_score := rfl

theorem setSignal_bm25_vector (c : Cand) (q : ℚ) :
    (setSignal c .vector q).bm25_score = c.bm25_score := rfl

theorem emptyCand_id (d : Doc) : (emptyCand d)._id = d._id := rfl

theorem addToMap_cond (m : List Cand) (id : String) :
    (m.any (fun c => c._id == id) = true) ↔
      id ∈ m.map (fun c => c._id) := by
  simp [List.any_eq_true, List.mem_map]

theorem addToMap_ids (m : List Cand) (sd : SDoc) (f : Signal) :
    (addToMap m sd f).map (fun c => c._id) =
      if sd.d._id ∈ m.map (fun c => c._id) then m.map (fun c => c._id)
      else m.map (fun c => c._id) ++ [sd.d._id] := by
  unfold addToMap
  by_cases h : sd.d._id ∈ m.map (fun c => c._id)
  · rw [if_pos ((addToMap_cond m sd.d._id).mpr h), if_pos h, List.map_map]
    refine List.map_congr_left (fun c _ => ?_)
    by_cases hc : c._id = sd.d._id
    · simp [hc, setSignal_id]
    · simp [hc]
  · rw [if_neg (fun hb => h ((addToMap_cond m sd.d._id).mp hb)), if_neg h,
      List.map_append]
    simp [setSignal_id, emptyCand_id]

theorem mem_ids_addToMap {id : String} (m : List Cand) (sd : SDoc)
    (f : Signal) :
    id ∈ (addToMap m sd f).map (fun c => c._id) ↔
      id ∈ m.map (fun c => c._id) ∨ id = sd.d._id := by
  rw [addToMap_ids]
  by_cases h : sd.d._id ∈ m.map (fun c => c._id)
  · rw [if_pos h]
    constructor
    · exact Or.inl
    · rintro (hm | rfl)
      · exact hm
      · exact h
  · rw [if_neg h]
    simp [List.mem_append]

theorem nodup_ids_addToMap {m : List Cand} (sd : SDoc) (f : Signal)
    (h : (m.map (fun c => c._id)).Nodup) :
    ((addToMap m sd f).map (fun c => c._id)).Nodup := by
  rw [addToMap_ids]
  by_cases hm : sd.d._id ∈ m.map (fun c => c._id)
  · rwa [if_pos hm]
  · rw [if_neg hm]
    simp only [List.nodup_append, List.nodup_singleton]
    exact ⟨h, trivial, by simpa using fun hmem => hm hmem⟩

theorem mem_addToMap {x : Cand} {m : List Cand} {sd : SDoc} {f : Signal}
    (hx : x ∈ addToMap m sd f) :
    (∃ y ∈ m, x = y ∨ (y._id = sd.d._id ∧ x = setSignal y f sd.score)) ∨
      (x = setSignal (emptyCand sd.d) f sd.score ∧
        sd.d._id ∉ m.map (fun c => c._id)) := by
  unfold addToMap at hx
  split at hx
  · rcases List.mem_map.mp hx with ⟨y, hy, hxy⟩
    refine Or.inl ⟨y, hy, ?_⟩
    by_cases hc : y._id = sd.d._id
    · right
      refine ⟨hc, ?_⟩
      rw [← hxy]
      simp [hc]
    · left
      rw [← hxy]
      simp [hc]
  · rcases List.mem_append.mp hx with hm | hnew
    · exact Or.inl ⟨x, hm, Or.inl rfl⟩
    · next hcond =>
        refine Or.inr ⟨List.mem_singleton.mp hnew, fun hmem => ?_⟩
        exact hcond ((addToMap_cond m sd.d._id).mpr hmem)

theorem mem_addToMap_of_not_id {x : Cand} {m : List Cand} {sd : SDoc}
    {f : Signal} (hx : x ∈ addToMap m sd f) (hid : x._id ≠ sd.d._id) :
    x ∈ m := by
  rcases mem_addToMap hx with ⟨y, hy, rfl | ⟨hyid, rfl⟩⟩ | ⟨rfl, _⟩
  · exact hy
  · exact absurd (by rw [setSignal_id, hyid]) hid
  · exact absurd (by rw [setSignal_id, emptyCand_id]) hid

theorem mem_ids_foldSignal (f : Signal) (l : List SDoc) (m : List Cand)
    (id : String) :
    (id ∈ (l.foldl (fun m sd => addToMap m sd f) m).map (fun c => c._id)) ↔
      id ∈ m.map (fun c => c._id) ∨ id ∈ l.map (fun s => s.d._id) := by
  induction l generalizing m with
  | nil => simp
  | cons sd l ih =>
      simp only [List.foldl_cons, List.map_cons, List.mem_cons]
      rw [ih, mem_ids_addToMap]
      tauto

theorem nodup_ids_foldSignal (f : Signal) (l : List SDoc) {m : List Cand}
    (h : (m.map (fun c => c._id)).Nodup) :
    ((l.foldl (fun m sd => addToMap m sd f) m).map (fun c => c._id)).Nodup := by
  induction l generalizing m with
  | nil => exact h
  | cons sd l ih => exact ih (nodup_ids_addToMap sd f h)

theorem foldSignal_keeps_unlisted (f : Signal) (l : List SDoc)
    {m : List Cand} {x : Cand}
    (hx : x ∈ l.foldl (fun m sd => addToMap m sd f) m)
    (hid : x._id ∉ l.map (fun s => s.d._id)) : x ∈ m := by
  induction l generalizing m with
  | nil => exact hx
  | cons sd l ih =>
      simp only [List.map_cons, List.mem_cons, not_or] at hid
      exact mem_addToMap_of_not_id (ih hx hid.2) hid.1

/-- A fold that writes only the signal `f` leaves any other numeric field
`g` of the candidates alone: each output candidate either inherits `g` from
an input candidate with its identity, or is a fresh record whose `g` is 0. -/
theorem foldSignal_other_preserved (f : Signal) (g : Cand → ℚ)
    (hset : ∀ c q, g (setSignal c f q) = g c)
    (hempty : ∀ d, g (emptyCand d) = 0)
    (l : List SDoc) (m : List Cand) {x : Cand}
    (hx : x ∈ l.foldl (fun m sd => addToMap m sd f) m) :
    (∃ y ∈ m, y._id = x._id ∧ g x = g y) ∨
      (x._id ∉ m.map (fun c => c._id) ∧ g x = 0) := by
  induction l generalizing m with
  | nil => exact Or.inl ⟨x, hx, rfl, rfl⟩
  | cons sd l ih =>
      rcases ih (addToMap m sd f) hx with ⟨y, hy, hyid, hgy⟩ | ⟨hnid, hg0⟩
      · rcases mem_addToMap hy with ⟨z, hz, hcase⟩ | ⟨hynew, hnot⟩
        · rcases hcase with hyz | ⟨hzid, hyz⟩
          · refine Or.inl ⟨z, hz, ?_, ?_⟩
            · rw [← hyz]
              exact hyid
            · rw [← hyz]
              exact hgy
          · refine Or.inl ⟨z, hz, ?_, ?_⟩
            · rw [hyz, setSignal_id] at hyid
              exact hyid
            · rw [hyz, hset] at hgy
              exact hgy
        · refine Or.inr ⟨?_, by rw [hynew, hset, hempty] at hgy; exact hgy⟩
          rw [hynew, setSignal_id, emptyCand_id] at hyid
          rw [← hyid]
          exact hnot
      · exact Or.inr
          ⟨fun hmem => hnid ((mem_ids_addToMap m sd f).mpr (Or.inl hmem)),
            hg0⟩

/-! ### Claim C8 — the merge is lossless -/

/-- C8: the merge of the two per-signal score streams produces exactly one
candidate per distinct document identity appearing in either stream (no
duplicate identities; an identity appears in the output iff it appears in a
stream; the output count equals the number of distinct identities), and a
document missing from one stream gets raw score 0 for the absent signal
instead of being excluded. -/
theorem c8_merge_lossless (knn txtS : List SDoc) :
    ((mergeStreams knn txtS).map (fun c => c._id)).Nodup ∧
    (∀ id : String,
      id ∈ (mergeStreams knn txtS).map (fun c => c._id) ↔
        id ∈ knn.map (fun s => s.d._id) ∨ id ∈ txtS.map (fun s => s.d._id)) ∧
    (mergeStreams knn txtS).length =
      ((knn.map (fun s => s.d._id) ++ txtS.map (fun s => s.d._id)).dedup).length ∧
    ∀ c ∈ mergeStreams knn txtS,
      (c._id ∉ knn.map (fun s => s.d._id) → c.vector_score = 0) ∧
      (c._id ∉ txtS.map (fun s => s.d._id) → c.bm25_score = 0) := by
  have hnodup : ((mergeStreams knn txtS).map (fun c => c._id)).Nodup :=
    nodup_ids_foldSignal _ _ (nodup_ids_foldSignal _ _ (by simp))
  have hmem : ∀ id : String,
      id ∈ (mergeStreams knn txtS).map (fun c => c._id) ↔
        id ∈ knn.map (fun s => s.d._id) ∨ id ∈ txtS.map (fun s => s.d._id) := by
    intro id
    unfold mergeStreams
    rw [mem_ids_foldSignal, mem_ids_foldSignal]
    simp only [List.map_nil, List.not_mem_nil, false_or]
  refine ⟨hnodup, hmem, ?_, ?_⟩
  · rw [← List.length_map (mergeStreams knn txtS) (fun c => c._id),
      ← List.toFinset_card_of_nodup hnodup, ← List.card_toFinset]
    congr 1
    apply Finset.ext
    intro id
    simp only [List.mem_toFinset, List.mem_append]
    exact hmem id
  · intro c hc
    constructor
    · intro hnk
      have hpres := foldSignal_other_preserved .bm25 (fun c => c.vector_score)
        (fun c q => setSignal_vector_bm25 c q) (fun _ => rfl) txtS
        (knn.foldl (fun m sd => addToMap m sd .vector) []) hc
      rcases hpres with ⟨y, hy, hyid, hgy⟩ | ⟨_, h0⟩
      · exfalso
        have hyin : y._id ∈
            ((knn.foldl (fun m sd => addToMap m sd .vector) []).map
              (fun c => c._id)) := List.mem_map_of_mem _ hy
        rw [mem_ids_foldSignal] at hyin
        rcases hyin with hin | hin
        · simp at hin
        · rw [hyid] at hin
          exact hnk hin
      · exact h0
    · intro hnt
      have hcm : c ∈ knn.foldl (fun m sd => addToMap m sd .vector) [] :=
        foldSignal_keeps_unlisted .bm25 txtS hc hnt
      have hpres := foldSignal_other_preserved .vector (fun c => c.bm25_score)
        (fun c q => setSignal_bm25_vector c q) (fun _ => rfl) knn [] hcm
      rcases hpres with ⟨y, hy, _, _⟩ | ⟨_, h0⟩
      · exact absurd hy (List.not_mem_nil y)
      · exact h0

/-- Witness for C8 on a concrete pair of streams covering different
documents: the merged count is the number of distinct identities, and the
document present only in the lexical stream keeps vector score 0. -/
theorem c8_witness :
    (mergeStreams [⟨⟨"v", some "x", some [1]⟩, 3⟩]
      [⟨⟨"t", some "y", none⟩, 4⟩]).length = 2 ∧
    (⟨"t", some "y", 0, 4, 0, 0, 0⟩ : Cand).vector_score = 0 := by
  have h := c8_merge_lossless [⟨⟨"v", some "x", some [1]⟩, 3⟩]
    [⟨⟨"t", some "y", none⟩, 4⟩]
  refine ⟨?_, ?_⟩
  · rw [h.2.2.1]
    decide
  · exact (h.2.2.2 ⟨"t", some "y", 0, 4, 0, 0, 0⟩ (by decide)).1 (by decide)

/-! ### Deduplication lemmas -/

theorem dedupByIdAux_sublist (seen : List String) (l : List Cand) :
    (dedupByIdAux seen l).Sublist l := by
  induction l generalizing seen with
  | nil => exact List.Sublist.refl []
  | cons c rest ih =>
      unfold dedupByIdAux
      split
      · exact (ih seen).cons c
      · exact (ih (c._id :: seen)).cons₂ c

theorem dedupByIdAux_not_seen {seen : List String} {l : List Cand}
    {c : Cand} (hc : c ∈ dedupByIdAux seen l) : c._id ∉ seen := by
  induction l generalizing seen with
  | nil => cases hc
  | cons a rest ih =>
      unfold dedupByIdAux at hc
      split at hc
      · exact ih hc
      · next h =>
          rcases List.mem_cons.mp hc with rfl | hmem
          · exact h
          · intro hin
            exact ih hmem (List.mem_cons_of_mem _ hin)

theorem dedupByIdAux_ids_nodup (seen : List String) (l : List Cand) :
    ((dedupByIdAux seen l).map (fun c => c._id)).Nodup := by
  induction l generalizing seen with
  | nil => exact List.nodup_nil
  | cons a rest ih =>
      unfold dedupByIdAux
      split
      · exact ih seen
      · rw [List.map_cons, List.nodup_cons]
        refine ⟨fun hmem => ?_, ih (a._id :: seen)⟩
        rcases List.mem_map.mp hmem with ⟨c, hc, hid⟩
        exact dedupByIdAux_not_seen hc (by rw [hid]; exact List.mem_cons_self _ _)

theorem dedupByIdAux_covers {seen : List String} {l : List Cand} {c : Cand}
    (hc : c ∈ l) (hs : c._id ∉ seen) :
    ∃ c' ∈ dedupByIdAux seen l, c'._id = c._id := by
  induction l generalizing seen with
  | nil => cases hc
  | cons a rest ih =>
      unfold dedupByIdAux
      split
      · next h =>
          rcases List.mem_cons.mp hc with rfl | hmem
          · exact absurd h hs
          · exact ih hmem hs
      · next h =>
          rcases List.mem_cons.mp hc with rfl | hmem
          · exact ⟨c, List.mem_cons_self _ _, rfl⟩
          · by_cases hid : c._id = a._id
            · exact ⟨a, List.mem_cons_self _ _, hid.symm⟩
            · rcases ih hmem (by
                intro hin
                rcases List.mem_cons.mp hin with h1 | h2
                · exact hid h1
                · exact hs h2) with ⟨c', hc', hcid⟩
              exact ⟨c', List.mem_cons_of_mem _ hc', hcid⟩

/-- Every survivor of the dedup pass is the first occurrence of its
identity in the input list. -/
theorem dedupByIdAux_first_occurrence {seen : List String} {l : List Cand}
    {c : Cand} (hc : c ∈ dedupByIdAux seen l) :
    ∃ i, ∃ hi : i < l.length, l.get ⟨i, hi⟩ = c ∧
      ∀ j (hj : j < l.length), j < i → (l.get ⟨j, hj⟩)._id ≠ c._id := by
  induction l generalizing seen with
  | nil => cases hc
  | cons a rest ih =>
      unfold dedupByIdAux at hc
      split at hc
      · next h =>
          rcases ih hc with ⟨i, hi, hget, hfirst⟩
          refine ⟨i + 1, by simpa using hi, hget, ?_⟩
          intro j hj hji
          cases j with
          | zero =>
              intro heq
              exact dedupByIdAux_not_seen hc (by rw [← heq]; exact h)
          | succ j' =>
              exact hfirst j' (by simpa using hj) (by omega)
      · next h =>
          rcases List.mem_cons.mp hc with rfl | hmem
          · exact ⟨0, by simp, rfl, fun j hj hji => absurd hji (by omega)⟩
          · rcases ih hmem with ⟨i, hi, hget, hfirst⟩
            refine ⟨i + 1, by simpa using hi, hget, ?_⟩
            intro j hj hji
            cases j with
            | zero =>
                intro heq
                exact dedupByIdAux_not_seen hmem
                  (by rw [← heq]; exact List.mem_cons_self _ _)
            | succ j' =>
                exact hfirst j' (by simpa using hj) (by omega)

/-! ### Sorting lemmas -/

theorem sortByHybridDesc_sorted (l : List Cand) :
    List.Sorted hsLE (sortByHybridDesc l) :=
  List.sorted_insertionSort hsLE l

theorem sortByHybridDesc_perm (l : List Cand) :
    (sortByHybridDesc l).Perm l :=
  List.perm_insertionSort hsLE l

/-! ### Stability of the descending sort -/

/-- The lexicographic refinement of the descending score comparison: strict
score order first, and an ascending position key on ties.  A stable sort by
score alone coincides with a sort by this relation whenever the keys
strictly increase along the input list. -/
def tieLE (key : Cand → ℕ) (a b : Cand) : Prop :=
  b.hybrid_score < a.hybrid_score ∨
    (b.hybrid_score = a.hybrid_score ∧ key a ≤ key b)

instance (key : Cand → ℕ) : DecidableRel (tieLE key) := fun _ _ =>
  inferInstanceAs (Decidable (_ ∨ _))

theorem tieLE_total (key : Cand → ℕ) (a b : Cand) :
    tieLE key a b ∨ tieLE key b a := by
  rcases lt_trichotomy a.hybrid_score b.hybrid_score with h | h | h
  · exact Or.inr (Or.inl h)
  · rcases Nat.le_total (key a) (key b) with hk | hk
    · exact Or.inl (Or.inr ⟨h.symm, hk⟩)
    · exact Or.inr (Or.inr ⟨h, hk⟩)
  · exact Or.inl (Or.inl h)

theorem tieLE_trans (key : Cand → ℕ) (a b c : Cand) (hab : tieLE key a b)
    (hbc : tieLE key b c) : tieLE key a c := by
  rcases hab with h1 | ⟨h1, k1⟩ <;> rcases hbc with h2 | ⟨h2, k2⟩
  · exact Or.inl (lt_trans h2 h1)
  · exact Or.inl (by rw [h2]; exact h1)
  · exact Or.inl (by rw [← h1]; exact h2)
  · exact Or.inr ⟨by rw [h2, h1], le_trans k1 k2⟩

theorem orderedInsert_tie_eq (key : Cand → ℕ) (a : Cand) :
    ∀ l : List Cand, (∀ b ∈ l, key a < key b) →
      List.orderedInsert hsLE a l = List.orderedInsert (tieLE key) a l
  | [], _ => rfl
  | b :: t, h => by
      have hab : hsLE a b ↔ tieLE key a b := by
        unfold hsLE tieLE
        constructor
        · intro hle
          rcases lt_or_eq_of_le hle with hlt | heq
          · exact Or.inl hlt
          · exact Or.inr ⟨heq, le_of_lt (h b (List.mem_cons_self _ _))⟩
        · rintro (hlt | ⟨heq, _⟩)
          · exact le_of_lt hlt
          · exact le_of_eq heq
      simp only [List.orderedInsert]
      by_cases hc : hsLE a b
      · rw [if_pos hc, if_pos (hab.mp hc)]
      · rw [if_neg hc, if_neg (fun ht => hc (hab.mpr ht)),
          orderedInsert_tie_eq key a t
            (fun x hx => h x (List.mem_cons_of_mem _ hx))]

theorem insertionSort_tie_eq (key : Cand → ℕ) :
    ∀ l : List Cand, l.Pairwise (fun a b => key a < key b) →
      List.insertionSort hsLE l = List.insertionSort (tieLE key) l
  | [], _ => rfl
  | a :: t, h => by
      show List.orderedInsert hsLE a (List.insertionSort hsLE t) =
        List.orderedInsert (tieLE key) a (List.insertionSort (tieLE key) t)
      rw [← insertionSort_tie_eq key t h.of_cons]
      exact orderedInsert_tie_eq key a _ (fun b hb =>
        (List.pairwise_cons.mp h).1 b
          ((List.perm_insertionSort hsLE t).mem_iff.mp hb))

theorem sorted_tieLE_insertionSort (key : Cand → ℕ) (l : List Cand) :
    List.Sorted (tieLE key) (List.insertionSort (tieLE key) l) := by
  letI : IsTotal Cand (tieLE key) := ⟨tieLE_total key⟩
  letI : IsTrans Cand (tieLE key) := ⟨tieLE_trans key⟩
  exact List.sorted_insertionSort (tieLE key) l

theorem findIdx_get_of_nodup :
    ∀ (l : List Cand), ((l.map (fun c => c._id)).Nodup) →
      ∀ i (hi : i < l.length),
        l.findIdx (fun x => x._id == (l.get ⟨i, hi⟩)._id) = i
  | [], _, i, hi => absurd hi (by simp)
  | a :: t, h, 0, hi => by
      simp [List.findIdx_cons]
  | a :: t, h, i + 1, hi => by
      have hne : (a._id == (t.get ⟨i, by simpa using hi⟩)._id) = false := by
        rw [beq_eq_false_iff_ne]
        intro heq
        have : a._id ∈ t.map (fun c => c._id) := by
          rw [heq]
          exact List.mem_map_of_mem _ (t.get_mem _ _)
        exact (List.nodup_cons.mp (by simpa using h)).1 this
      show (a :: t).findIdx (fun x => x._id == (t.get ⟨i, _⟩)._id) = i + 1
      rw [List.findIdx_cons]
      simp only [hne, cond_false]
      rw [findIdx_get_of_nodup t (List.nodup_cons.mp (by simpa using h)).2 i
        (by simpa using hi)]

theorem pairwise_findIdx_lt (l : List Cand)
    (h : (l.map (fun c => c._id)).Nodup) :
    l.Pairwise (fun a b =>
      l.findIdx (fun x => x._id == a._id) <
        l.findIdx (fun x => x._id == b._id)) := by
  rw [List.pairwise_iff_getElem]
  intro i j hi hj hij
  have hi' := findIdx_get_of_nodup l h i hi
  have hj' := findIdx_get_of_nodup l h j hj
  simp only [List.get_eq_getElem] at hi' hj'
  rw [hi', hj']
  exact hij

/-- The stable descending sort of a batch with distinct ids is sorted for
the lexicographic relation whose tie-break key is the position (recovered
through the id) in the unsorted batch: ties keep the input order. -/
theorem sortByHybridDesc_stable (l : List Cand)
    (h : (l.map (fun c => c._id)).Nodup) :
    List.Pairwise
      (tieLE (fun c => l.findIdx (fun x => x._id == c._id)))
      (sortByHybridDesc l) := by
  unfold sortByHybridDesc
  rw [insertionSort_tie_eq (fun c => l.findIdx (fun x => x._id == c._id)) l
    (pairwise_findIdx_lt l h)]
  exact sorted_tieLE_insertionSort _ l

/-! ### Merge-order lemmas -/

theorem fuseStage_ids (m : Cand) (ms : List Cand) (cfg : RAGConfig) :
    (fuseStage m ms cfg).map (fun c => c._id) =
      (m :: ms).map (fun c => c._id) := by
  unfold fuseStage
  rw [List.map_map]
  rfl

theorem findIdx_map_id_pred (g : Cand → Cand)
    (hg : ∀ r, (g r)._id = r._id) (p : String → Bool) :
    ∀ l : List Cand,
      (l.map g).findIdx (fun x => p x._id) = l.findIdx (fun x => p x._id)
  | [] => rfl
  | a :: t => by
      rw [List.map_cons, List.findIdx_cons, List.findIdx_cons, hg a,
        findIdx_map_id_pred g hg p t]

theorem findIdx_fuseStage (m : Cand) (ms : List Cand) (cfg : RAGConfig)
    (p : String → Bool) :
    (fuseStage m ms cfg).findIdx (fun x => p x._id) =
      (m :: ms).findIdx (fun x => p x._id) := by
  unfold fuseStage
  refine findIdx_map_id_pred _ ?_ p (m :: ms)
  intro r
  rfl

theorem foldSignal_ids_of_disjoint (f : Signal) :
    ∀ (l : List SDoc) (m : List Cand),
      ((m.map (fun c => c._id)) ++ (l.map (fun s => s.d._id))).Nodup →
      (l.foldl (fun m sd => addToMap m sd f) m).map (fun c => c._id) =
        m.map (fun c => c._id) ++ l.map (fun s => s.d._id)
  | [], m, _ => by simp
  | sd :: l, m, h => by
      have hnotin : sd.d._id ∉ m.map (fun c => c._id) := fun hx =>
        (List.disjoint_of_nodup_append h) hx (List.mem_cons_self _ _)
      have hids : (addToMap m sd f).map (fun c => c._id) =
          m.map (fun c => c._id) ++ [sd.d._id] := by
        rw [addToMap_ids, if_neg hnotin]
      have hrec :
          ((addToMap m sd f).map (fun c => c._id) ++
            l.map (fun s => s.d._id)).Nodup := by
        rw [hids, List.append_assoc]
        exact h
      show (l.foldl (fun m sd => addToMap m sd f)
        (addToMap m sd f)).map (fun c => c._id) = _
      rw [foldSignal_ids_of_disjoint f l (addToMap m sd f) hrec, hids,
        List.append_assoc]
      rfl

theorem foldSignal_ids_of_subset (f : Signal) :
    ∀ (l : List SDoc) (m : List Cand),
      (∀ sd ∈ l, sd.d._id ∈ m.map (fun c => c._id)) →
      (l.foldl (fun m sd => addToMap m sd f) m).map (fun c => c._id) =
        m.map (fun c => c._id)
  | [], _, _ => rfl
  | sd :: l, m, h => by
      have hin : sd.d._id ∈ m.map (fun c => c._id) :=
        h sd (List.mem_cons_self _ _)
      have hids : (addToMap m sd f).map (fun c => c._id) =
          m.map (fun c => c._id) := by
        rw [addToMap_ids, if_pos hin]
      show (l.foldl (fun m sd => addToMap m sd f)
        (addToMap m sd f)).map (fun c => c._id) = _
      rw [foldSignal_ids_of_subset f l (addToMap m sd f) (fun x hx => by
        rw [hids]
        exact h x (List.mem_cons_of_mem _ hx)), hids]

theorem txtStream_ids (docs : List Doc) (text : String)
    (h : ∀ d ∈ docs, hasContent d = true) :
    (txtStream docs text).map (fun s => s.d._id) =
      docs.map (fun d => d._id) := by
  induction docs with
  | nil => rfl
  | cons d ds ih =>
      have hd := h d (List.mem_cons_self _ _)
      have hrest := ih (fun x hx => h x (List.mem_cons_of_mem _ hx))
      unfold txtStream at hrest ⊢
      simp only [List.filterMap_cons, hd, if_true, List.map_cons]
      rw [hrest]

theorem knnStream_ids (sqrtQ : ℚ → ℚ) (docs : List Doc) (emb : List ℚ)
    (h : ∀ d ∈ docs, hasContent d = true ∧ d.embedding.isSome = true) :
    (knnStream sqrtQ docs emb).map (fun s => s.d._id) =
      docs.map (fun d => d._id) := by
  induction docs with
  | nil => rfl
  | cons d ds ih =>
      have hd := h d (List.mem_cons_self _ _)
      have hrest := ih (fun x hx => h x (List.mem_cons_of_mem _ hx))
      unfold knnStream at hrest ⊢
      simp only [List.filterMap_cons, hd.1, hd.2, and_self, if_true,
        List.map_cons]
      rw [hrest]

theorem pipelineMerged_ids_nodup (sqrtQ : ℚ → ℚ) (docs : List Doc)
    (emb : List ℚ) (text : String) :
    ((pipelineMerged sqrtQ docs emb text).map (fun c => c._id)).Nodup :=
  nodup_ids_foldSignal _ _ (nodup_ids_foldSignal _ _ (by simp))

theorem pipelineMerged_ids_of_full (sqrtQ : ℚ → ℚ) (docs : List Doc)
    (emb : List ℚ) (text : String)
    (hall : ∀ d ∈ docs, hasContent d = true ∧ d.embedding.isSome = true)
    (hnd : (docs.map (fun d => d._id)).Nodup) :
    (pipelineMerged sqrtQ docs emb text).map (fun c => c._id) =
      docs.map (fun d => d._id) := by
  have hknn : (knnStream sqrtQ docs emb).map (fun s => s.d._id) =
      docs.map (fun d => d._id) := knnStream_ids sqrtQ docs emb hall
  have htxt : (txtStream docs text).map (fun s => s.d._id) =
      docs.map (fun d => d._id) := txtStream_ids docs text
    (fun d hd => (hall d hd).1)
  have hinner : ((knnStream sqrtQ docs emb).foldl
      (fun m sd => addToMap m sd .vector) []).map (fun c => c._id) =
      docs.map (fun d => d._id) := by
    rw [foldSignal_ids_of_disjoint .vector _ [] (by simpa [hknn] using hnd)]
    simpa using hknn
  by_cases hd : docs = []
  · subst hd
    rfl
  · have hmapne : docs.map (fun d => d._id) ≠ [] := by
      intro h0
      exact hd (List.map_eq_nil_iff.mp h0)
    have hks : knnStream sqrtQ docs emb ≠ [] := by
      intro h0
      rw [h0] at hknn
      exact hmapne hknn.symm
    have hne : (knnStream sqrtQ docs emb).isEmpty = false := by
      cases hkk : knnStream sqrtQ docs emb with
      | nil => exact absurd hkk hks
      | cons a l => rfl
    unfold pipelineMerged
    simp only [hne, Bool.false_eq_true, if_false]
    unfold mergeStreams
    rw [foldSignal_ids_of_subset .bm25 (txtStream docs text) _
      (fun sd hsd => by
        rw [hinner]
        have hmem : sd.d._id ∈ (txtStream docs text).map
            (fun s => s.d._id) := List.mem_map_of_mem _ hsd
        rwa [htxt] at hmem), hinner]

/-! ### Claim C4 — ranking key and tie-breaking -/

/-- C4 counterexample: a corpus scanning first a document without an
embedding (`"a"`) and then one with an embedding (`"b"`) produces a tie
(`hybrid_score = 1` for both), yet `"b"` is ranked first — the merge order
puts embedding-bearing documents ahead of scan order, so ties are not broken
by original corpus-scan order. -/
theorem c4_counterexample :
    (performHybridSearch id
      [⟨"a", some "x", none⟩, ⟨"b", some "x", some [0, 1]⟩]
      [1, 0] "x" ⟨1 / 2, 1 / 2, 0, 5⟩).map (fun c => (c._id, c.hybrid_score)) =
      [("b", 1), ("a", 1)] := by
  decide

/-- C4 amended: `hybrid_score` is the sole ranking key and the sort is
stable, but ties are broken by the position in the *merged* candidate batch
(documents carrying an embedding, in scan order, precede embedding-less
documents) rather than by raw corpus-scan order; when every scanned
document has nonempty content and an embedding (ids distinct), the merge
order does coincide with corpus-scan order. -/
theorem c4_amended_stable_tiebreak_merge_order (sqrtQ : ℚ → ℚ)
    (docs : List Doc) (emb : List ℚ) (text : String) (cfg : RAGConfig) :
    List.Pairwise
      (tieLE (fun c => (pipelineMerged sqrtQ docs emb text).findIdx
        (fun x => x._id == c._id)))
      (performHybridSearch sqrtQ docs emb text cfg) ∧
    ((∀ d ∈ docs, hasContent d = true ∧ d.embedding.isSome = true) →
      (docs.map (fun d => d._id)).Nodup →
      (pipelineMerged sqrtQ docs emb text).map (fun c => c._id) =
        docs.map (fun d => d._id)) := by
  refine ⟨?_, fun hall hnd =>
    pipelineMerged_ids_of_full sqrtQ docs emb text hall hnd⟩
  unfold performHybridSearch
  by_cases hd : docs.isEmpty = true
  · simp only [hd, if_true]
    exact List.pairwise_singleton _ _
  · simp only [hd, if_false]
    cases hm : pipelineMerged sqrtQ docs emb text with
    | nil => exact List.Pairwise.nil
    | cons m ms =>
        have hnodup : ((m :: ms).map (fun c => c._id)).Nodup := by
          rw [← hm]
          exact pipelineMerged_ids_nodup sqrtQ docs emb text
        have hfn : ((fuseStage m ms cfg).map (fun c => c._id)).Nodup := by
          rw [fuseStage_ids]
          exact hnodup
        have hstable := sortByHybridDesc_stable (fuseStage m ms cfg) hfn
        have hkey :
            (fun c : Cand => (fuseStage m ms cfg).findIdx
              (fun x => x._id == c._id)) =
            (fun c : Cand => (m :: ms).findIdx (fun x => x._id == c._id)) :=
          funext (fun c => findIdx_fuseStage m ms cfg (fun s => s == c._id))
        rw [hkey] at hstable
        exact List.Pairwise.sublist
          ((List.take_sublist _ _).trans (dedupByIdAux_sublist [] _)) hstable

/-- Witness for C4 amended: with both documents carrying content and an
embedding, the merged batch lists the documents in corpus-scan order. -/
theorem c4_witness :
    (pipelineMerged id [⟨"a", some "x", some [1]⟩, ⟨"b", some "y", some [1]⟩]
      [1] "x").map (fun c => c._id) =
      ([⟨"a", some "x", some [1]⟩, ⟨"b", some "y", some [1]⟩] : List Doc).map
        (fun d => d._id) :=
  (c4_amended_stable_tiebreak_merge_order id _ [1] "x" ⟨1 / 2, 1 / 2, 0, 5⟩).2
    (by decide) (by decide)

/-! ### Claim C5 — the weighted fusion ranker -/

/-- C5: on a merged candidate batch `m :: ms` with weights from the
configuration, the fusion stage gives every candidate
`fusedScore = wv·normVectorScore + wl·normLexicalScore`, sorts descending by
that score, deduplicates by document id keeping only first occurrences (no
id repeats, no id is lost), and returns at most `topK` candidates. -/
theorem c5_fuse_rank_contract (m : Cand) (ms : List Cand) (cfg : RAGConfig) :
    (∀ c ∈ fuseStage m ms cfg,
      c.hybrid_score = c.vector_score_norm * cfg.vectorWeight +
        c.bm25_score_norm * cfg.bm25Weight) ∧
    List.Sorted hsLE (sortByHybridDesc (fuseStage m ms cfg)) ∧
    ((dedupById (sortByHybridDesc (fuseStage m ms cfg))).map
      (fun c => c._id)).Nodup ∧
    (∀ c ∈ sortByHybridDesc (fuseStage m ms cfg),
      ∃ c' ∈ dedupById (sortByHybridDesc (fuseStage m ms cfg)),
        c'._id = c._id) ∧
    (∀ c ∈ dedupById (sortByHybridDesc (fuseStage m ms cfg)),
      ∃ i, ∃ hi : i < (sortByHybridDesc (fuseStage m ms cfg)).length,
        (sortByHybridDesc (fuseStage m ms cfg)).get ⟨i, hi⟩ = c ∧
        ∀ j (hj : j < (sortByHybridDesc (fuseStage m ms cfg)).length),
          j < i →
            ((sortByHybridDesc (fuseStage m ms cfg)).get ⟨j, hj⟩)._id ≠
              c._id) ∧
    ((dedupById (sortByHybridDesc (fuseStage m ms cfg))).take
      cfg.topK).length ≤ cfg.topK := by
  refine ⟨?_, sortByHybridDesc_sorted _, dedupByIdAux_ids_nodup [] _, ?_, ?_, ?_⟩
  · intro c hc
    rcases List.mem_map.mp hc with ⟨r, _, rfl⟩
    rfl
  · intro c hc
    exact dedupByIdAux_covers hc (List.not_mem_nil c._id)
  · intro c hc
    exact dedupByIdAux_first_occurrence hc
  · rw [List.length_take]
    exact min_le_left _ _

/-- Witness for C5 on a two-candidate batch with a duplicated id: the
fused scores follow the weighted formula, the sort is descending, and the
dedup keeps one candidate per id. -/
theorem c5_witness :
    ((fuseStage ⟨"a", some "x", 1, 0, 0, 0, 0⟩
        [⟨"b", some "y", 0, 1, 0, 0, 0⟩, ⟨"a", some "x", 1, 1, 0, 0, 0⟩]
        ⟨1 / 2, 1 / 2, 0, 1⟩).map (fun c => c.hybrid_score) =
      [1 / 2, 1 / 2, 1]) ∧
    ((dedupById (sortByHybridDesc (fuseStage ⟨"a", some "x", 1, 0, 0, 0, 0⟩
        [⟨"b", some "y", 0, 1, 0, 0, 0⟩, ⟨"a", some "x", 1, 1, 0, 0, 0⟩]
        ⟨1 / 2, 1 / 2, 0, 1⟩))).map (fun c => c._id)).Nodup := by
  constructor
  · decide
  · exact (c5_fuse_rank_contract ⟨"a", some "x", 1, 0, 0, 0, 0⟩
      [⟨"b", some "y", 0, 1, 0, 0, 0⟩, ⟨"a", some "x", 1, 1, 0, 0, 0⟩]
      ⟨1 / 2, 1 / 2, 0, 1⟩).2.2.1

/-! ### Score bounds -/

theorem fuseStage_bounds (m : Cand) (ms : List Cand) (cfg : RAGConfig)
    (hwv : 0 ≤ cfg.vectorWeight) (hwb : 0 ≤ cfg.bm25Weight) :
    ∀ c ∈ fuseStage m ms cfg,
      (0 ≤ c.vector_score_norm ∧ c.vector_score_norm ≤ 1) ∧
      (0 ≤ c.bm25_score_norm ∧ c.bm25_score_norm ≤ 1) ∧
      0 ≤ c.hybrid_score ∧
      c.hybrid_score ≤ cfg.vectorWeight + cfg.bm25Weight := by
  intro c hc
  rcases List.mem_map.mp hc with ⟨r, hr, rfl⟩
  have hvmem : r.vector_score ∈
      m.vector_score :: ms.map (fun x => x.vector_score) := by
    rcases List.mem_cons.mp hr with rfl | h
    · exact List.mem_cons_self _ _
    · exact List.mem_cons_of_mem _ (List.mem_map_of_mem _ h)
  have hbmem : r.bm25_score ∈
      m.bm25_score :: ms.map (fun x => x.bm25_score) := by
    rcases List.mem_cons.mp hr with rfl | h
    · exact List.mem_cons_self _ _
    · exact List.mem_cons_of_mem _ (List.mem_map_of_mem _ h)
  have hv := normalizeScore_nonneg (jsMin_le_of_mem hvmem)
    (le_jsMax_of_mem hvmem)
  have hv1 := normalizeScore_le_one (jsMin_le_of_mem hvmem)
    (le_jsMax_of_mem hvmem)
  have hb := normalizeScore_nonneg (jsMin_le_of_mem hbmem)
    (le_jsMax_of_mem hbmem)
  have hb1 := normalizeScore_le_one (jsMin_le_of_mem hbmem)
    (le_jsMax_of_mem hbmem)
  refine ⟨⟨hv, hv1⟩, ⟨hb, hb1⟩, ?_, ?_⟩
  · exact add_nonneg (mul_nonneg hv hwv) (mul_nonneg hb hwb)
  · have h1 : normalizeScore r.vector_score
        (jsMin m.vector_score (ms.map (fun x => x.vector_score)))
        (jsMax m.vector_score (ms.map (fun x => x.vector_score))) *
        cfg.vectorWeight ≤ cfg.vectorWeight := by
      calc _ ≤ 1 * cfg.vectorWeight := mul_le_mul_of_nonneg_right hv1 hwv
        _ = cfg.vectorWeight := one_mul _
    have h2 : normalizeScore r.bm25_score
        (jsMin m.bm25_score (ms.map (fun x => x.bm25_score)))
        (jsMax m.bm25_score (ms.map (fun x => x.bm25_score))) *
        cfg.bm25Weight ≤ cfg.bm25Weight := by
      calc _ ≤ 1 * cfg.bm25Weight := mul_le_mul_of_nonneg_right hb1 hwb
        _ = cfg.bm25Weight := one_mul _
    exact add_le_add h1 h2

theorem mem_performHybridSearch {sqrtQ : ℚ → ℚ} {docs : List Doc}
    {emb : List ℚ} {text : String} {cfg : RAGConfig} {c : Cand}
    (hc : c ∈ performHybridSearch sqrtQ docs emb text cfg) :
    c = dummyStory ∨
      ∃ m ms, pipelineMerged sqrtQ docs emb text = m :: ms ∧
        c ∈ fuseStage m ms cfg := by
  unfold performHybridSearch at hc
  by_cases hd : docs.isEmpty = true
  · rw [if_pos hd] at hc
    exact Or.inl (List.mem_singleton.mp hc)
  · rw [if_neg hd] at hc
    cases hm : pipelineMerged sqrtQ docs emb text with
    | nil =>
        rw [hm] at hc
        cases hc
    | cons m ms =>
        rw [hm] at hc
        refine Or.inr ⟨m, ms, rfl, ?_⟩
        exact (sortByHybridDesc_perm _).mem_iff.mp
          (((List.take_sublist _ _).trans
            (dedupByIdAux_sublist [] _)).mem hc)

theorem performHybridSearch_bounds (sqrtQ : ℚ → ℚ) (docs : List Doc)
    (emb : List ℚ) (text : String) (cfg : RAGConfig)
    (hwv : 0 ≤ cfg.vectorWeight) (hwb : 0 ≤ cfg.bm25Weight) :
    ∀ c ∈ performHybridSearch sqrtQ docs emb text cfg,
      (0 ≤ c.vector_score_norm ∧ c.vector_score_norm ≤ 1) ∧
      (0 ≤ c.bm25_score_norm ∧ c.bm25_score_norm ≤ 1) ∧
      0 ≤ c.hybrid_score ∧
      c.hybrid_score ≤ cfg.vectorWeight + cfg.bm25Weight := by
  intro c hc
  rcases mem_performHybridSearch hc with rfl | ⟨m, ms, _, hmem⟩
  · exact ⟨⟨by decide, by decide⟩, ⟨by decide, by decide⟩, by decide,
      by simpa [dummyStory] using add_nonneg hwv hwb⟩
  · exact fuseStage_bounds m ms cfg hwv hwb c hmem

theorem mem_enhanceWithLLM {cands : List Cand} {judge : Cand → JudgeResult}
    {cfg : RAGConfig} {e : ECand} (he : e ∈ enhanceWithLLM cands judge cfg) :
    ∃ c ∈ cands,
      (judge c = .error () ∧ e = ⟨c, none, 0, "LLM failed", c.hybrid_score⟩) ∨
      (∃ q r, judge c = .ok (q, r) ∧
        e = ⟨c, some (String.mk ((c.content.getD "").toList.take 400)), q, r,
          c.vector_score_norm * cfg.vectorWeight +
            c.bm25_score_norm * cfg.bm25Weight + cfg.hybridWeight * q⟩) := by
  unfold enhanceWithLLM at he
  have he' := (List.perm_insertionSort finalLE _).mem_iff.mp he
  rcases List.mem_map.mp he' with ⟨c, hc, rfl⟩
  refine ⟨c, hc, ?_⟩
  cases hj : judge c with
  | error u =>
      cases u
      exact Or.inl ⟨rfl, rfl⟩
  | ok p =>
      rcases p with ⟨q, r⟩
      exact Or.inr ⟨q, r, rfl, rfl⟩

/-! ### Claim C6 — fused scores stay in the unit interval -/

/-- C6: with the §3 weight invariant (non-negative weights summing to at
most 1) and the §6 judge interface (scores in [0,1]), every candidate's
fused score after each fusion stage lies in [0,1]: the provisional
two-signal `hybrid_score` of the search output, and the three-signal
`hybrid_score_final` after semantic re-ranking. -/
theorem c6_fused_scores_unit_interval (sqrtQ : ℚ → ℚ) (docs : List Doc)
    (emb : List ℚ) (text : String) (cfg : RAGConfig)
    (judge : Cand → JudgeResult)
    (hwv : 0 ≤ cfg.vectorWeight) (hwb : 0 ≤ cfg.bm25Weight)
    (hwh : 0 ≤ cfg.hybridWeight)
    (hsum : cfg.vectorWeight + cfg.bm25Weight + cfg.hybridWeight ≤ 1)
    (hjudge : ∀ c q r, judge c = .ok (q, r) → 0 ≤ q ∧ q ≤ 1) :
    (∀ c ∈ performHybridSearch sqrtQ docs emb text cfg,
      0 ≤ c.hybrid_score ∧ c.hybrid_score ≤ 1) ∧
    (∀ e ∈ enhanceWithLLM (performHybridSearch sqrtQ docs emb text cfg)
        judge cfg,
      0 ≤ e.hybrid_score_final ∧ e.hybrid_score_final ≤ 1) := by
  have hbase := performHybridSearch_bounds sqrtQ docs emb text cfg hwv hwb
  constructor
  · intro c hc
    rcases hbase c hc with ⟨_, _, h0, h1⟩
    exact ⟨h0, le_trans h1 (by linarith)⟩
  · intro e he
    rcases mem_enhanceWithLLM he with ⟨c, hc, ⟨_, rfl⟩ | ⟨q, r, hj, rfl⟩⟩
    · rcases hbase c hc with ⟨_, _, h0, h1⟩
      exact ⟨h0, le_trans h1 (by linarith)⟩
    · rcases hbase c hc with ⟨⟨hv0, hv1⟩, ⟨hb0, hb1⟩, _, _⟩
      rcases hjudge c q r hj with ⟨hq0, hq1⟩
      constructor
      · have t1 := mul_nonneg hv0 hwv
        have t2 := mul_nonneg hb0 hwb
        have t3 := mul_nonneg hwh hq0
        simp only []
        linarith
      · have t1 : c.vector_score_norm * cfg.vectorWeight ≤
            cfg.vectorWeight := by
          calc _ ≤ 1 * cfg.vectorWeight :=
            mul_le_mul_of_nonneg_right hv1 hwv
            _ = _ := one_mul _
        have t2 : c.bm25_score_norm * cfg.bm25Weight ≤ cfg.bm25Weight := by
          calc _ ≤ 1 * cfg.bm25Weight := mul_le_mul_of_nonneg_right hb1 hwb
            _ = _ := one_mul _
        have t3 : cfg.hybridWeight * q ≤ cfg.hybridWeight := by
          calc _ ≤ cfg.hybridWeight * 1 := mul_le_mul_of_nonneg_left hq1 hwh
            _ = _ := mul_one _
        simp only []
        linarith

/-- Witness for C6 on a one-document corpus with judge score 1/2: both the
provisional and the final fused score of the surviving candidate stay in
[0,1]. -/
theorem c6_witness :
    (0 : ℚ) ≤ (⟨⟨"a", some "x", 1, 1, 1, 1, 9 / 10⟩, some "x", 1 / 2, "ok",
      19 / 20⟩ : ECand).hybrid_score_final ∧
    (⟨⟨"a", some "x", 1, 1, 1, 1, 9 / 10⟩, some "x", 1 / 2, "ok",
      19 / 20⟩ : ECand).hybrid_score_final ≤ 1 :=
  (c6_fused_scores_unit_interval id [⟨"a", some "x", some [1]⟩] [1] "x"
    ⟨6 / 10, 3 / 10, 1 / 10, 5⟩ (fun _ => .ok (1 / 2, "ok"))
    (by norm_num) (by norm_num) (by norm_num) (by norm_num)
    (by
      intro c q r h
      injection h with h1
      injection h1 with h2 h3
      rw [← h2]
      norm_num)).2
    ⟨⟨"a", some "x", 1, 1, 1, 1, 9 / 10⟩, some "x", 1 / 2, "ok", 19 / 20⟩
    (by decide)

/-! ### Claim C3 — semantic-judge failure isolation -/

/-- C3 counterexample: a delivered-but-unparseable judge response (no JSON
and no extractable number, part_007:444-453) resolves to `llm_score = 0`
with the raw response text as `llm_reason` and an evidence snippet pushed
like any success — the entry carries no degraded marker, refuting the
claim's conjunct that a malformed response leaves the candidate "annotated
as degraded" (the only degraded annotation in the code is the catch
branch's `"LLM failed"`, part_007:469). -/
theorem c3_counterexample :
    enhanceWithLLM [⟨"a", some "x", 0, 0, 0, 0, 0⟩]
        (fun _ => .ok (0, "I cannot answer that.")) ⟨1 / 2, 1 / 2, 0, 5⟩ =
      [⟨⟨"a", some "x", 0, 0, 0, 0, 0⟩, some "x", 0,
        "I cannot answer that.", 0⟩] ∧
    ("I cannot answer that." : String) ≠ "LLM failed" :=
  ⟨rfl, by decide⟩

/-- C3 (amended): a judge failure for one candidate does not abort the
batch: no candidate is dropped (the output has the input's length); a
candidate whose chat call threw survives as an entry with `llm_score = 0`,
the degraded annotation `"LLM failed"`, no evidence field, and
`hybrid_score_final` equal to its provisional `hybrid_score`; a
delivered-but-malformed response (parse resolved to score 0) likewise keeps
the final score equal to the provisional one whenever the provisional score
was computed with the same weights, but its entry carries the parse-produced
reason and an evidence snippet like any success — an output entry lacks the
evidence field exactly when its chat call threw, so malformed responses are
not annotated as degraded; and if the judge errors for every candidate of
the (descending-sorted) provisional ranking, the output is exactly that
ranking with every entry carrying the degraded annotation. -/
theorem c3_amended_failure_isolation (cands : List Cand)
    (judge : Cand → JudgeResult) (cfg : RAGConfig) :
    (enhanceWithLLM cands judge cfg).length = cands.length ∧
    (∀ c ∈ cands, judge c = .error () →
      (⟨c, none, 0, "LLM failed", c.hybrid_score⟩ : ECand) ∈
        enhanceWithLLM cands judge cfg) ∧
    (∀ c ∈ cands, ∀ r : String, judge c = .ok (0, r) →
      c.hybrid_score = c.vector_score_norm * cfg.vectorWeight +
        c.bm25_score_norm * cfg.bm25Weight →
      (⟨c, some (String.mk ((c.content.getD "").toList.take 400)), 0, r,
        c.hybrid_score⟩ : ECand) ∈ enhanceWithLLM cands judge cfg) ∧
    (∀ e ∈ enhanceWithLLM cands judge cfg,
      e.evidence = none ↔ judge e.base = .error ()) ∧
    ((∀ c ∈ cands, judge c = .error ()) → List.Sorted hsLE cands →
      enhanceWithLLM cands judge cfg =
        cands.map (fun c => ⟨c, none, 0, "LLM failed", c.hybrid_score⟩)) := by
  refine ⟨?_, ?_, ?_, ?_, ?_⟩
  · unfold enhanceWithLLM
    rw [(List.perm_insertionSort finalLE _).length_eq, List.length_map]
  · intro c hc hj
    unfold enhanceWithLLM
    rw [List.mem_insertionSort]
    refine List.mem_map.mpr ⟨c, hc, ?_⟩
    rw [hj]
  · intro c hc r hj hcons
    unfold enhanceWithLLM
    rw [List.mem_insertionSort]
    refine List.mem_map.mpr ⟨c, hc, ?_⟩
    rw [hj]
    simp only [mul_zero, add_zero]
    rw [← hcons]
  · intro e he
    rcases mem_enhanceWithLLM he with ⟨c, hc, ⟨hj, rfl⟩ | ⟨q, r, hj, rfl⟩⟩
    · simp [hj]
    · simp [hj]
  · intro hall hsorted
    unfold enhanceWithLLM
    have hmap : cands.map (fun c =>
        match judge c with
        | .error _ => (⟨c, none, 0, "LLM failed", c.hybrid_score⟩ : ECand)
        | .ok (q, reason) =>
            ⟨c, some (String.mk ((c.content.getD "").toList.take 400)), q,
              reason, c.vector_score_norm * cfg.vectorWeight +
              c.bm25_score_norm * cfg.bm25Weight + cfg.hybridWeight * q⟩) =
        cands.map (fun c =>
          (⟨c, none, 0, "LLM failed", c.hybrid_score⟩ : ECand)) :=
      List.map_congr_left (fun c hc => by rw [hall c hc])
    rw [hmap]
    apply List.Sorted.insertionSort_eq
    exact List.pairwise_map.mpr (hsorted.imp (fun h => h))

/-- Witness for C3: with a judge that always throws, a two-candidate
provisional ranking passes through unchanged, each entry degraded. -/
theorem c3_witness :
    enhanceWithLLM
      [⟨"a", none, 0, 0, 0, 0, 1⟩, ⟨"b", none, 0, 0, 0, 0, 0⟩]
      (fun _ => .error ()) ⟨1 / 2, 1 / 2, 0, 5⟩ =
      [⟨⟨"a", none, 0, 0, 0, 0, 1⟩, none, 0, "LLM failed", 1⟩,
       ⟨⟨"b", none, 0, 0, 0, 0, 0⟩, none, 0, "LLM failed", 0⟩] := by
  have h := (c3_amended_failure_isolation
    [⟨"a", none, 0, 0, 0, 0, 1⟩, ⟨"b", none, 0, 0, 0, 0, 0⟩]
    (fun _ => .error ()) ⟨1 / 2, 1 / 2, 0, 5⟩).2.2.2.2
    (fun c _ => rfl) (by decide)
  rw [h]
  rfl

/-! ### Relating the JS split to whitespace tokenization -/

/-- The simulation invariant between the split fold and the token fold:
the token state is the field state without its empty fields; the field
state is never empty; the token boundary flag holds exactly when the
current head field is empty; and after a whitespace character the head
field is empty. -/
def SplitTokenInv (fs ts : List (List Char) × Bool) : Prop :=
  ts.1 = fs.1.filter (fun f => ¬ f.isEmpty) ∧
  fs.1 ≠ [] ∧
  (ts.2 = true ↔ fs.1.head? = some []) ∧
  (fs.2 = true → fs.1.head? = some [])

theorem splitTokenInv_step (c : Char) {fs ts : List (List Char) × Bool}
    (h : SplitTokenInv fs ts) :
    SplitTokenInv (splitStep c fs) (tokenStep c ts) := by
  obtain ⟨h1, h2, h3, h4⟩ := h
  by_cases hw : isJsWs c = true
  · unfold splitStep tokenStep
    rw [if_pos hw, if_pos hw]
    by_cases hb : fs.2 = true
    · rw [if_pos hb]
      exact ⟨h1, h2, by simp [h4 hb], fun _ => h4 hb⟩
    · rw [if_neg hb]
      refine ⟨?_, by simp, by simp, fun _ => rfl⟩
      simp only [List.filter_cons]
      simp [h1]
  · unfold splitStep tokenStep
    rw [if_neg hw, if_neg hw]
    rcases hfs : fs.1 with _ | ⟨f, l⟩
    · exact absurd hfs h2
    · by_cases hb : ts.2 = true
      · have hf : f = [] := by
          have := h3.mp hb
          rw [hfs] at this
          simpa using this
        rw [if_pos hb]
        subst hf
        refine ⟨?_, by simp, by simp, by simp⟩
        rw [h1, hfs]
        simp
      · have hf : ¬ f.isEmpty := by
          intro hemp
          have hf' : f = [] := by
            cases f
            · rfl
            · simp [List.isEmpty] at hemp
          exact hb (h3.mpr (by rw [hfs, hf']; rfl))
        rw [if_neg hb]
        have hts : ts.1 = f :: l.filter (fun f => ¬ f.isEmpty) := by
          rw [h1, hfs]
          simp only [List.filter_cons]
          simp [hf]
        rw [hts]
        refine ⟨?_, by simp, by simp, by simp⟩
        simp only [List.filter_cons]
        simp [hfs]

theorem splitTokenInv_foldr (cs : List Char) :
    SplitTokenInv (cs.foldr splitStep ([[]], false))
      (cs.foldr tokenStep ([], true)) := by
  induction cs with
  | nil =>
      refine ⟨rfl, by simp, by simp, by simp⟩
  | cons c cs ih =>
      rw [List.foldr_cons, List.foldr_cons]
      exact splitTokenInv_step c ih

/-- The spec's whitespace tokens are exactly the nonempty fields of the JS
split. -/
theorem wsTokens_eq_filter (cs : List Char) :
    wsTokens cs = (jsSplitWs cs).filter (fun f => ¬ f.isEmpty) :=
  (splitTokenInv_foldr cs).1

/-- The split-state invariant that holds once the rightmost processed
character is non-whitespace: the field list is nonempty, every field but
the head is nonempty, and after a non-whitespace character the head is
nonempty too. -/
def SplitNoTrail (st : List (List Char) × Bool) : Prop :=
  st.1 ≠ [] ∧ (∀ f ∈ st.1.tail, ¬ f.isEmpty) ∧
    (st.2 = false → st.1.head? ≠ some [])

theorem splitNoTrail_step (c : Char) {st : List (List Char) × Bool}
    (h : SplitNoTrail st) : SplitNoTrail (splitStep c st) := by
  obtain ⟨h1, h2, h3⟩ := h
  by_cases hw : isJsWs c = true
  · unfold splitStep
    rw [if_pos hw]
    by_cases hb : st.2 = true
    · rw [if_pos hb]
      exact ⟨h1, h2, by simp⟩
    · rw [if_neg hb]
      refine ⟨by simp, ?_, by simp⟩
      intro f hf
      rcases hst : st.1 with _ | ⟨g, l⟩
      · exact absurd hst h1
      · rw [hst] at hf
        simp only [List.tail_cons] at hf
        rcases List.mem_cons.mp hf with rfl | hfl
        · intro hemp
          apply h3 (by simpa using hb)
          rw [hst]
          have hfe : f = [] := by
            cases f
            · rfl
            · simp [List.isEmpty] at hemp
          rw [hfe]
          rfl
        · exact h2 f (by rw [hst]; exact hfl)
  · unfold splitStep
    rw [if_neg hw]
    rcases hst : st.1 with _ | ⟨f, l⟩
    · exact absurd hst h1
    · refine ⟨by simp, ?_, by simp⟩
      intro g hg
      exact h2 g (by rw [hst]; simpa using hg)

theorem splitNoTrail_foldr (cs : List Char)
    {st : List (List Char) × Bool} (h : SplitNoTrail st) :
    SplitNoTrail (cs.foldr splitStep st) := by
  induction cs with
  | nil => exact h
  | cons c cs ih => exact splitNoTrail_step c ih

/-- A text that is nonempty and neither begins nor ends with whitespace
splits into nonempty fields only. -/
theorem jsSplitWs_no_empty (c : Char) (rest : List Char)
    (hc : isJsWs c = false)
    (hlast : ∀ a, (c :: rest).getLast? = some a → isJsWs a = false) :
    ∀ f ∈ jsSplitWs (c :: rest), ¬ f.isEmpty := by
  have hmain : SplitNoTrail ((c :: rest).foldr splitStep ([[]], false)) := by
    rcases List.eq_nil_or_concat rest with rfl | ⟨front, a, hrest⟩
    · show SplitNoTrail (splitStep c ([[]], false))
      unfold splitStep
      rw [if_neg (by simp [hc])]
      exact ⟨by simp, by simp, by simp⟩
    · rw [List.concat_eq_append] at hrest
      subst hrest
      have ha : isJsWs a = false := by
        apply hlast
        rw [← List.cons_append, List.getLast?_concat]
      have hstep : SplitNoTrail (splitStep a ([[]], false)) := by
        unfold splitStep
        rw [if_neg (by simp [ha])]
        exact ⟨by simp, by simp, by simp⟩
      show SplitNoTrail ((c :: (front ++ [a])).foldr splitStep ([[]], false))
      rw [show (c :: (front ++ [a])) = (c :: front) ++ [a] from rfl,
        List.foldr_append]
      exact splitNoTrail_foldr (c :: front) hstep
  intro f hf
  have hstepflag : ∀ st : List (List Char) × Bool,
      (splitStep c st).2 = false := by
    intro st
    unfold splitStep
    rw [if_neg (by simp [hc])]
    rcases hh : st.1 with _ | ⟨g, l⟩
    · rfl
    · rfl
  have hflag : ((c :: rest).foldr splitStep ([[]], false)).2 = false := by
    rw [List.foldr_cons]
    exact hstepflag _
  obtain ⟨h1, h2, h3⟩ := hmain
  unfold jsSplitWs at hf
  rcases hst : ((c :: rest).foldr splitStep ([[]], false)).1 with _ | ⟨g, l⟩
  · rw [hst] at hf
    cases hf
  · rw [hst] at hf
    rcases List.mem_cons.mp hf with hfg | hfl
    · intro hemp
      have hfe : f = [] := by
        cases f
        · rfl
        · simp [List.isEmpty] at hemp
      exact (h3 hflag) (by rw [hst, ← hfg, hfe]; rfl)
    · exact h2 f (by rw [hst]; exact hfl)

/-! ### Character facts -/

theorem toNat_ofNat_valid (n : Nat) (h : n.isValidChar) :
    (Char.ofNat n).toNat = n := by
  rw [Char.ofNat, dif_pos h]
  rfl

theorem char_le_iff_toNat {a b : Char} : a ≤ b ↔ a.toNat ≤ b.toNat :=
  Iff.rfl

theorem char_eq_iff_toNat {a b : Char} : a = b ↔ a.toNat = b.toNat :=
  ⟨fun h => by rw [h], fun h => Char.ext (UInt32.toNat.inj h)⟩

theorem isJsWs_false_of_ascii (c : Char) (h1 : 33 ≤ c.toNat)
    (h2 : c.toNat ≤ 126) : isJsWs c = false := by
  have hne : ∀ k : Char, (k.toNat < 33 ∨ 126 < k.toNat) →
      (c == k) = false := by
    intro k hk
    rw [beq_eq_false_iff_ne]
    intro h
    rw [char_eq_iff_toNat] at h
    omega
  have hr1 : decide (' ' ≤ c) = false := by
    rw [decide_eq_false_iff_not, char_le_iff_toNat]
    have h8 : (' ' : Char).toNat = 8192 := by decide
    omega
  unfold isJsWs
  rw [hne ' ' (Or.inl (by decide)), hne '\t' (Or.inl (by decide)),
    hne '\n' (Or.inl (by decide)), hne '\r' (Or.inl (by decide)),
    hne '\u000B' (Or.inl (by decide)), hne '\u000C' (Or.inl (by decide)),
    hne '\u00A0' (Or.inr (by decide)), hne '\u1680' (Or.inr (by decide)),
    hne '\u2028' (Or.inr (by decide)), hne '\u2029' (Or.inr (by decide)),
    hne '\u202F' (Or.inr (by decide)), hne '\u205F' (Or.inr (by decide)),
    hne '\u3000' (Or.inr (by decide)), hne '\uFEFF' (Or.inr (by decide)),
    hr1, Bool.false_and]
  simp

/-- Lower-casing does not change whether a character is whitespace. -/
theorem isJsWs_toLower (c : Char) : isJsWs (Char.toLower c) = isJsWs c := by
  simp only [Char.toLower]
  by_cases h : c.toNat ≥ 65 ∧ c.toNat ≤ 90
  · rw [if_pos h]
    have hv : (c.toNat + 32).isValidChar := Or.inl (by omega)
    have ht : (Char.ofNat (c.toNat + 32)).toNat = c.toNat + 32 :=
      toNat_ofNat_valid _ hv
    rw [isJsWs_false_of_ascii _ (by omega) (by omega),
      isJsWs_false_of_ascii c (by omega) (by omega)]
  · rw [if_neg h]

theorem jsSplitWs_ne_nil (cs : List Char) : jsSplitWs cs ≠ [] :=
  (splitTokenInv_foldr cs).2.1

/-! ### Claim C7 — lexical similarity -/

/-- C7 counterexample: for the empty query and the empty document, both
token sets are empty and the spec's Jaccard definition yields 0, but
`computeTextSimilarity` returns 1 — JS `split(/\s+/)` yields the singleton
field `[""]` for the empty string, so the two sets both equal `{""}`. -/
theorem c7_counterexample :
    computeTextSimilarity (jsToLower "") (jsToLower "") = 1 ∧
    specLexicalSim "" "" = 0 := by
  decide

/-- C7 amended: for query and document strings that are nonempty and
neither begin nor end with whitespace, the lexical score equals the Jaccard
index of the lower-cased whitespace token sets; for other inputs the
boundary whitespace runs contribute an empty-string field to the JS split,
and in particular two empty texts score 1, not 0. -/
theorem c7_amended_jaccard_tokens (q d : String)
    (hq0 : q.toList ≠ [])
    (hq1 : ∀ c, q.toList.head? = some c → isJsWs c = false)
    (hq2 : ∀ c, q.toList.getLast? = some c → isJsWs c = false)
    (hd0 : d.toList ≠ [])
    (hd1 : ∀ c, d.toList.head? = some c → isJsWs c = false)
    (hd2 : ∀ c, d.toList.getLast? = some c → isJsWs c = false) :
    computeTextSimilarity (jsToLower q) (jsToLower d) = specLexicalSim q d := by
  have key : ∀ s : String, s.toList ≠ [] →
      (∀ c, s.toList.head? = some c → isJsWs c = false) →
      (∀ c, s.toList.getLast? = some c → isJsWs c = false) →
      wsTokens (jsToLower s).toList = jsSplitWs (jsToLower s).toList := by
    intro s h0 hh hl
    have hmap : (jsToLower s).toList = s.toList.map Char.toLower := rfl
    rcases hcs : s.toList with _ | ⟨c, rest⟩
    · exact absurd hcs h0
    have hnoempty : ∀ f ∈ jsSplitWs (jsToLower s).toList, ¬ f.isEmpty := by
      rw [hmap, hcs, List.map_cons]
      apply jsSplitWs_no_empty
      · rw [isJsWs_toLower]
        exact hh c (by rw [hcs]; rfl)
      · intro a ha
        rw [← List.map_cons, List.getLast?_map] at ha
        rcases hlast : (c :: rest).getLast? with _ | b
        · rw [hlast] at ha
          cases ha
        · rw [hlast] at ha
          have hab : a = Char.toLower b := by
            simpa using ha.symm
          rw [hab, isJsWs_toLower]
          exact hl b (by rw [hcs]; exact hlast)
    rw [wsTokens_eq_filter]
    exact List.filter_eq_self.mpr (fun f hf => by
      simpa using hnoempty f hf)
  have hq := key q hq0 hq1 hq2
  have hd' := key d hd0 hd1 hd2
  unfold computeTextSimilarity specLexicalSim
  rw [hq, hd']
  rw [if_neg ?_]
  push_neg
  constructor
  · intro h0
    have := List.toFinset_eq_empty_iff _ |>.mp h0
    exact jsSplitWs_ne_nil (jsToLower q).toList (by
      rcases hsp : jsSplitWs (jsToLower q).toList with _ | _
      · rfl
      · rw [hsp] at this
        cases this)
  · intro h0
    have := List.toFinset_eq_empty_iff _ |>.mp h0
    exact jsSplitWs_ne_nil (jsToLower d).toList (by
      rcases hsp : jsSplitWs (jsToLower d).toList with _ | _
      · rfl
      · rw [hsp] at this
        cases this)

/-- Witness for C7 amended at the boundary-whitespace-free pair
`("a b", "b c")`: both sides evaluate to the Jaccard index 1/3. -/
theorem c7_witness :
    computeTextSimilarity (jsToLower "a b") (jsToLower "b c") =
      specLexicalSim "a b" "b c" ∧ specLexicalSim "a b" "b c" = 1 / 3 :=
  ⟨c7_amended_jaccard_tokens "a b" "b c" (by decide)
    (by decide) (by decide) (by decide) (by decide) (by decide),
   by decide⟩

/-! ### Claim C10 — totality and shape of the story normalizer -/

theorem char_toUpper_A {c : Char} (h : Char.toLower c = 'a') :
    Char.toUpper c = 'A' := by
  simp only [Char.toLower] at h
  by_cases hc : c.toNat ≥ 65 ∧ c.toNat ≤ 90
  · rw [if_pos hc] at h
    have hv : (c.toNat + 32).isValidChar := Or.inl (by omega)
    have ht := toNat_ofNat_valid _ hv
    rw [h] at ht
    have h97 : ('a' : Char).toNat = 97 := by decide
    rw [h97] at ht
    have hc65 : c.toNat = 65 := by omega
    have hca : c = 'A' := by
      rw [char_eq_iff_toNat, hc65]
      decide
    rw [hca]
    decide
  · rw [if_neg hc] at h
    rw [h]
    decide

theorem ensurePunct_ne_nil (cs : List Char) : ensurePunct cs ≠ [] := by
  unfold ensurePunct
  split
  · next h =>
      rcases h with h | h | h <;>
        exact fun hnil => by rw [hnil] at h; cases h
  · exact fun hnil => by
      have := congrArg List.length hnil
      simp at this

theorem ensurePunct_last (cs : List Char) :
    ∃ c, (ensurePunct cs).getLast? = some c ∧
      (c = '.' ∨ c = '!' ∨ c = '?') := by
  unfold ensurePunct
  split
  · next h =>
      rcases h with h | h | h
      · exact ⟨'.', h, Or.inl rfl⟩
      · exact ⟨'!', h, Or.inr (Or.inl rfl)⟩
      · exact ⟨'?', h, Or.inr (Or.inr rfl)⟩
  · exact ⟨'.', List.getLast?_concat _, Or.inl rfl⟩

theorem ensurePunct_head (c : Char) (rest : List Char) :
    (ensurePunct (c :: rest)).head? = some c := by
  unfold ensurePunct
  split
  · rfl
  · rfl

theorem formatTest_head {cs : List Char} (h : formatTest cs = true) :
    ∃ c rest, cs = c :: rest ∧ Char.toLower c = 'a' := by
  unfold formatTest at h
  rw [Bool.and_eq_true] at h
  cases cs with
  | nil =>
      have h1 := h.1
      simp at h1
  | cons c rest =>
      refine ⟨c, rest, rfl, ?_⟩
      have h1 := h.1
      rw [List.map_cons] at h1
      have hsplit : "as a ".toList = 'a' :: "s a ".toList := rfl
      rw [hsplit, List.isPrefixOf_cons₂] at h1
      rw [Bool.and_eq_true] at h1
      exact (eq_of_beq h1.1).symm

/-- C10: for every input string (whitespace-only included), `normalizeStory`
returns a nonempty string whose first character is its own upper-case (it is
in fact `A` on both paths) and whose last character is `.`, `!` or `?`; and
when the collapsed text is not in the `as a … i want … so that …` shape it
is rebuilt from the role/action/value template with the defaults `user`,
the whole text, and `achieve the desired outcome`. -/
theorem c10_normalize_story_total_shape (story : String) :
    (normalizeStory story).toList ≠ [] ∧
    (∀ c, (normalizeStory story).toList.head? = some c →
      Char.toUpper c = c) ∧
    (∃ c, (normalizeStory story).toList.getLast? = some c ∧
      (c = '.' ∨ c = '!' ∨ c = '?')) ∧
    (formatTest (collapseWs story).toList = false →
      normalizeStory story = String.mk (ensurePunct (capFirst
        ("As a ".toList ++
          ((matchCapture rolePats (collapseWs story).toList).map
            jsTrim).getD "user".toList ++
          ", I want to ".toList ++
          ((matchCapture actionPats (collapseWs story).toList).map
            jsTrim).getD (collapseWs story).toList ++
          " so that ".toList ++
          ((matchCapture valuePats (collapseWs story).toList).map
            jsTrim).getD "achieve the desired outcome".toList)))) := by
  have hshape : ∀ l : List Char, (String.mk l).toList = l := fun _ => rfl
  refine ⟨?_, ?_, ?_, ?_⟩
  · unfold normalizeStory
    rw [hshape]
    exact ensurePunct_ne_nil _
  · intro c hc
    unfold normalizeStory at hc
    rw [hshape] at hc
    by_cases hf : formatTest (collapseWs story).toList = true
    · rw [if_pos hf] at hc
      rcases formatTest_head hf with ⟨a, rest, heq, hlow⟩
      rw [heq] at hc
      show Char.toUpper c = c
      have hcap : capFirst (a :: rest) =
          Char.toUpper a :: rest.map Char.toLower := rfl
      rw [hcap, ensurePunct_head] at hc
      have hc' : c = Char.toUpper a := by
        injection hc with h'
        exact h'.symm
      rw [hc', char_toUpper_A hlow]
      decide
    · rw [if_neg hf] at hc
      have hA : ∃ t, "As a ".toList ++
          ((matchCapture rolePats (collapseWs story).toList).map
            jsTrim).getD "user".toList ++
          ", I want to ".toList ++
          ((matchCapture actionPats (collapseWs story).toList).map
            jsTrim).getD (collapseWs story).toList ++
          " so that ".toList ++
          ((matchCapture valuePats (collapseWs story).toList).map
            jsTrim).getD "achieve the desired outcome".toList =
          'A' :: t := ⟨_, rfl⟩
      rcases hA with ⟨t, ht⟩
      rw [ht] at hc
      have hcap : capFirst ('A' :: t) =
          Char.toUpper 'A' :: t.map Char.toLower := rfl
      rw [hcap, ensurePunct_head] at hc
      have hc' : c = Char.toUpper 'A' := by
        injection hc with h'
        exact h'.symm
      rw [hc']
      decide
  · unfold normalizeStory
    rw [hshape]
    exact ensurePunct_last _
  · intro hf
    simp only [normalizeStory]
    rw [if_neg (by
      have hf' : formatTest (collapseWs story).data = false := hf
      simp [hf'])]

/-- Witness for C10 on the free-text input `"hello"`, which is not in the
story shape and has no extractable role/action/value: all defaults fire. -/
theorem c10_witness :
    normalizeStory "hello" ≠ "" ∧
    normalizeStory "hello" =
      "As a user, i want to hello so that achieve the desired outcome." := by
  constructor
  · have h := (c10_normalize_story_total_shape "hello").1
    intro he
    rw [he] at h
    exact h rfl
  · have h := (c10_normalize_story_total_shape "hello").2.2.2 (by decide)
    rw [h]
    decide

end RagPipeline
